import Mathlib

/-!
# Verification of the calc-mcp-server calculation core

Shallow embedding of `src/services/calculator.py` (class `CalculatorEngine`)
and `src/services/parser.py` (class `MathExpressionParser`) of the
calc-mcp-server repository, together with proofs checking the repository's
natural-language specification against this code.

Modelling conventions:
* Python numbers (`int` / `float`) are modelled by `PyNum`: an integer
  carries a `ℤ`, a float carries a `ℚ`.  Float arithmetic is modelled
  exactly over `ℚ`; none of the checked properties depends on IEEE-754
  rounding.  `math.sqrt` is modelled by a fixed-precision dyadic
  approximation (see `floatSqrt`).
* Fallible Python code (raised exceptions caught and turned into
  `{"error": ...}` dictionaries) is modelled by `Except CalcErr`, where
  `CalcErr` records the error *kind* corresponding to each distinct error
  message / exception class of the source.
* `CALC_MAX_VALUE` (environment-configurable, default `1e15`) is passed
  explicitly as the parameter `maxV`; `maxValDefault` is the default.
* The parser configuration (`config.yaml`) is loaded from a data file at
  runtime and is not part of the source tree; those tables are modelled
  from the specification and marked as such below.
-/

/-- Python numeric value: an `int` or a `float`.  Floats are modelled as
exact rationals. -/
inductive PyNum where
  | i : ℤ → PyNum
  | f : ℚ → PyNum
deriving DecidableEq, Repr

namespace PyNum

/-- The rational value of a Python number. -/
def toQ : PyNum → ℚ
  | .i n => (n : ℚ)
  | .f q => q

/-- Is the value stored as a Python `int`? -/
def isInt : PyNum → Bool
  | .i _ => true
  | .f _ => false

/-- Python `isinstance(x, int) or (isinstance(x, float) and x.is_integer())`. -/
def isIntegerValued : PyNum → Bool
  | .i _ => true
  | .f q => q.den == 1

/-- Python `+` with int/float promotion. -/
def add : PyNum → PyNum → PyNum
  | .i a, .i b => .i (a + b)
  | a, b => .f (a.toQ + b.toQ)

/-- Python `-` with int/float promotion. -/
def sub : PyNum → PyNum → PyNum
  | .i a, .i b => .i (a - b)
  | a, b => .f (a.toQ - b.toQ)

/-- Python `*` with int/float promotion. -/
def mul : PyNum → PyNum → PyNum
  | .i a, .i b => .i (a * b)
  | a, b => .f (a.toQ * b.toQ)

/-- Python `/` (true division): always a float. -/
def div (a b : PyNum) : PyNum := .f (a.toQ / b.toQ)

/-- Python unary `-`. -/
def neg : PyNum → PyNum
  | .i a => .i (-a)
  | .f q => .f (-q)

/-- Python `abs`: type preserving. -/
def pyabs : PyNum → PyNum
  | .i a => .i |a|
  | .f q => .f |q|

/-- Python `%` (sign follows the divisor): `a - b * floor(a / b)`.
Int `%` int stays an int; otherwise a float. -/
def pymod : PyNum → PyNum → PyNum
  | .i a, .i b => .i (a - b * ⌊(a : ℚ) / (b : ℚ)⌋)
  | a, b => .f (a.toQ - b.toQ * ⌊a.toQ / b.toQ⌋)

end PyNum

/-- Error kinds of the calculation core.  Each corresponds to a distinct
error message / exception class of the source:
* `argCount` – "requires at least 2 numbers";
* `typeErr` – "Invalid number type";
* `numTooLarge` – input magnitude validation, "Number too large";
* `resultTooLarge` – result magnitude check, "Result too large";
* `divByZero` – `ZeroDivisionError` / "Division by zero";
* `domain` – negative sqrt, factorial domain, oversized exponent;
* `security` – "Potentially dangerous expression";
* `synErr` – `SyntaxError` / `NameError` / `TypeError` during `eval`,
  surfaced as "Invalid mathematical expression";
* `overflow` – "Mathematical overflow";
* `unsupported` – operations producing values outside the exact rational
  model (non-integral float exponents), never reached by the claims. -/
inductive CalcErr where
  | argCount
  | typeErr
  | numTooLarge
  | resultTooLarge
  | divByZero
  | domain
  | security
  | synErr
  | overflow
  | unsupported
deriving DecidableEq, Repr

/-- Default `CALC_MAX_VALUE` (`1e15`, exactly representable). -/
def maxValDefault : ℚ := 1000000000000000

instance : DecidableEq (Except CalcErr PyNum) := fun a b =>
  match a, b with
  | .error x, .error y =>
    if h : x = y then isTrue (by rw [h]) else isFalse fun hc => by cases hc; exact h rfl
  | .error _, .ok _ => isFalse fun hc => by cases hc
  | .ok _, .error _ => isFalse fun hc => by cases hc
  | .ok x, .ok y =>
    if h : x = y then isTrue (by rw [h]) else isFalse fun hc => by cases hc; exact h rfl

/-- Python `**` on numbers.  Int bases with non-negative int exponents give
ints; a negative int exponent or a float operand gives a float.  `0`
raised to a negative power raises `ZeroDivisionError`.  Non-integral
exponents would produce irrational (or complex) values outside the exact
rational model and are mapped to `unsupported`; no checked claim reaches
them. -/
def pypow : PyNum → PyNum → Except CalcErr PyNum
  | .i a, .i b =>
    if 0 ≤ b then .ok (.i (a ^ b.toNat))
    else if a = 0 then .error .divByZero
    else .ok (.f ((a : ℚ) ^ (b : ℤ)))
  | a, b =>
    if b.toQ.den = 1 then
      if a.toQ = 0 ∧ b.toQ < 0 then .error .divByZero
      else .ok (.f (a.toQ ^ b.toQ.num))
    else .error .unsupported

/-- Fixed-precision dyadic model of `math.sqrt` on a non-negative float:
`⌊sqrt(q · 4^20)⌋ / 2^20`.  (The double result of the source is a dyadic
rational close to the real square root; the checked properties depend only
on the result not exceeding the real square root by more than it does
here.) -/
def floatSqrt (q : ℚ) : ℚ := ((Nat.sqrt (⌊q * 4 ^ 20⌋).toNat : ℚ)) / 2 ^ 20

namespace CalculatorEngine

/-- `CalculatorEngine._validate_numbers`: every input must satisfy
`abs(num) <= CALC_MAX_VALUE`.  (The `isinstance` type check cannot fail in
the embedding: every `PyNum` is an int or a float.) -/
def validOk (maxV : ℚ) (ns : List PyNum) : Prop := ∀ n ∈ ns, |n.toQ| ≤ maxV

instance validOk.dec (maxV : ℚ) (ns : List PyNum) : Decidable (validOk maxV ns) :=
  List.decidableBAll _ ns

/-- `CalculatorEngine.add`. -/
def add (maxV : ℚ) (numbers : List PyNum) : Except CalcErr PyNum :=
  if numbers.length < 2 then .error .argCount
  else if validOk maxV numbers then
    let result := numbers.foldl PyNum.add (.i 0)
    if maxV < |result.toQ| then .error .resultTooLarge else .ok result
  else .error .numTooLarge

/-- `CalculatorEngine.subtract`. -/
def subtract (maxV : ℚ) (minuend : PyNum) (subtrahends : List PyNum) :
    Except CalcErr PyNum :=
  if subtrahends.length = 0 then .error .argCount
  else if validOk maxV (minuend :: subtrahends) then
    let result := minuend.sub (subtrahends.foldl PyNum.add (.i 0))
    if maxV < |result.toQ| then .error .resultTooLarge else .ok result
  else .error .numTooLarge

/-- The multiplication loop of `CalculatorEngine.multiply`: the running
product is checked against `maxV` after every step. -/
def mulLoop (maxV : ℚ) : PyNum → List PyNum → Except CalcErr PyNum
  | acc, [] => .ok acc
  | acc, n :: rest =>
    let acc' := acc.mul n
    if maxV < |acc'.toQ| then .error .resultTooLarge else mulLoop maxV acc' rest

/-- `CalculatorEngine.multiply`. -/
def multiply (maxV : ℚ) (numbers : List PyNum) : Except CalcErr PyNum :=
  if numbers.length < 2 then .error .argCount
  else if validOk maxV numbers then mulLoop maxV (.i 1) numbers
  else .error .numTooLarge

/-- The division loop of `CalculatorEngine.divide`: the running quotient is
checked against `maxV` after every step. -/
def divLoop (maxV : ℚ) : PyNum → List PyNum → Except CalcErr PyNum
  | acc, [] => .ok acc
  | acc, d :: rest =>
    let acc' := acc.div d
    if maxV < |acc'.toQ| then .error .resultTooLarge else divLoop maxV acc' rest

/-- `CalculatorEngine.divide`: validates all numbers, then checks every
divisor for zero, then divides left to right. -/
def divide (maxV : ℚ) (dividend : PyNum) (divisors : List PyNum) :
    Except CalcErr PyNum :=
  if divisors.length = 0 then .error .argCount
  else if validOk maxV (dividend :: divisors) then
    if ∃ d ∈ divisors, d.toQ = 0 then .error .divByZero
    else divLoop maxV dividend divisors
  else .error .numTooLarge

/-- `CalculatorEngine.power`. -/
def power (maxV : ℚ) (base exponent : PyNum) : Except CalcErr PyNum :=
  if validOk maxV [base, exponent] then
    if 1000 < |exponent.toQ| then .error .domain
    else
      match pypow base exponent with
      | .error e => .error e
      | .ok r => if maxV < |r.toQ| then .error .resultTooLarge else .ok r
  else .error .numTooLarge

/-- `CalculatorEngine.sqrt`: rejects negative input, performs no check on
the result. -/
def sqrt (maxV : ℚ) (number : PyNum) : Except CalcErr PyNum :=
  if validOk maxV [number] then
    if number.toQ < 0 then .error .domain
    else .ok (.f (floatSqrt number.toQ))
  else .error .numTooLarge

/-- `CalculatorEngine.factorial`: requires an integer-valued input in
`[0, 170]`, then checks the result against `maxV`.  (No input-magnitude
validation is performed by the source.) -/
def factorial (maxV : ℚ) (number : PyNum) : Except CalcErr PyNum :=
  if number.isIntegerValued then
    let n : ℤ := number.toQ.num
    if n < 0 then .error .domain
    else if 170 < n then .error .domain
    else
      let r : ℤ := (Nat.factorial n.toNat : ℤ)
      if maxV < (r : ℚ) then .error .resultTooLarge else .ok (.i r)
  else .error .domain

/-- `CalculatorEngine.modulo`: rejects a zero divisor, performs no check on
the result. -/
def modulo (maxV : ℚ) (dividend divisor : PyNum) : Except CalcErr PyNum :=
  if validOk maxV [dividend, divisor] then
    if divisor.toQ = 0 then .error .divByZero
    else .ok (dividend.pymod divisor)
  else .error .numTooLarge

/-- `CalculatorEngine.absolute`: performs no check on the result. -/
def absolute (maxV : ℚ) (number : PyNum) : Except CalcErr PyNum :=
  if validOk maxV [number] then .ok number.pyabs
  else .error .numTooLarge

end CalculatorEngine

/-! ## Character classes (ASCII scope of the inputs handled by the parser) -/

/-- Python regex `\s` (ASCII range). -/
def isWS (c : Char) : Bool :=
  c = ' ' || c = '\t' || c = '\n' || c = '\r' || c = '\x0b' || c = '\x0c'

/-- ASCII decimal digit (`\d`). -/
def isDigitC (c : Char) : Bool := 48 ≤ c.toNat && c.toNat ≤ 57

/-- ASCII letter. -/
def isAlphaC (c : Char) : Bool :=
  (97 ≤ c.toNat && c.toNat ≤ 122) || (65 ≤ c.toNat && c.toNat ≤ 90)

/-- Python regex `\w` (ASCII range): letter, digit or underscore. -/
def isWordC (c : Char) : Bool := isAlphaC c || isDigitC c || c = '_'

/-- The operator class of the cleanup pass `\s*([+\-*/()%])\s*`. -/
def isOpC (c : Char) : Bool :=
  c = '+' || c = '-' || c = '*' || c = '/' || c = '(' || c = ')' || c = '%'

/-- Numeric value of a digit character. -/
def digitVal (c : Char) : ℕ := c.toNat - 48

/-- Digit character of a value `< 10`. -/
def digitChar (d : ℕ) : Char := Char.ofNat (48 + d)

/-! ## Generic string helpers (on `List Char`) -/

/-- `str.lower()` (ASCII scope): `Char.toLower` maps `A`–`Z` to `a`–`z`. -/
def lowerL (s : List Char) : List Char := s.map Char.toLower

/-- `str.strip()`. -/
def trimL (s : List Char) : List Char :=
  (((s.dropWhile fun c => isWS c).reverse).dropWhile fun c => isWS c).reverse

/-- Worker for `collapseWS`; the flag records whether the previous character
was part of a whitespace run already collapsed. -/
def collapseGo : Bool → List Char → List Char
  | _, [] => []
  | inWS, c :: rest =>
    if isWS c then
      if inWS then collapseGo true rest else ' ' :: collapseGo true rest
    else c :: collapseGo false rest

/-- `re.sub(r'\s+', ' ', s)`. -/
def collapseWS (s : List Char) : List Char := collapseGo false s

/-- Does some suffix of the string satisfy `p`?  (Regex `re.search` is a
match of the pattern at some suffix start.) -/
def existsSuffix (p : List Char → Bool) : List Char → Bool
  | [] => p []
  | c :: cs => p (c :: cs) || existsSuffix p cs

/-- Python substring containment (`w in s`). -/
def containsSub (w s : List Char) : Bool := existsSuffix (fun l => w.isPrefixOf l) s

/-! ## Word-boundary substitution: `re.sub(r'\b' + w + r'\b', r, s)`

`subGo w r skip prev s` scans `s` left to right; `skip` counts characters
of a previous match still to be passed over, `prev` is the previous
character of the original string (for the left boundary `\b`). -/

/-- Left side of `\b`: start of string or a non-word character.  (All
substituted words start and end with word characters.) -/
def boundaryL : Option Char → Bool
  | none => true
  | some c => !isWordC c

/-- Right side of `\b`: end of string or a non-word character. -/
def boundaryR : List Char → Bool
  | [] => true
  | c :: _ => !isWordC c

def subGo (w r : List Char) : ℕ → Option Char → List Char → List Char
  | _ + 1, _, [] => []
  | skip + 1, _, c :: cs => subGo w r skip (some c) cs
  | 0, _, [] => []
  | 0, prev, c :: cs =>
    if w.isPrefixOf (c :: cs) && boundaryL prev && boundaryR ((c :: cs).drop w.length) then
      r ++ subGo w r (w.length - 1) (some c) cs
    else c :: subGo w r 0 (some c) cs

/-- Whole-word regex substitution of `w` by `r`. -/
def subWord (w r s : List Char) : List Char := subGo w r 0 none s

/-! ## Parser configuration

The parser reads its tables from `config.yaml`, a data file loaded at
runtime that is not part of the source tree.  The tables below are
modelled from the specification (sections 3 and 4.2): lowercase number
words mapped to digit strings, operation phrases mapped to symbols
(`plus` → `+`, `squared` → `**2`, `to the power of` → `**`, a square-root
phrase handled specially), conversational lead phrases, and the stripped
punctuation class `[?!]`. -/

/-- Modelled from the spec: `wordToNumber`, lowercase number word →
digit string (representative set; claims only need that every key is a
nonempty alphabetic word). -/
def wordToNumber : List (List Char × List Char) :=
  [("zero".data, "0".data), ("one".data, "1".data), ("two".data, "2".data),
   ("three".data, "3".data), ("four".data, "4".data), ("five".data, "5".data),
   ("six".data, "6".data), ("seven".data, "7".data), ("eight".data, "8".data),
   ("nine".data, "9".data), ("ten".data, "10".data), ("twenty".data, "20".data),
   ("thirty".data, "30".data), ("hundred".data, "100".data)]

/-- Modelled from the spec: `operationWords`, operation phrase → symbol. -/
def operationWords : List (List Char × List Char) :=
  [("plus".data, "+".data), ("minus".data, "-".data), ("times".data, "*".data),
   ("divided by".data, "/".data), ("to the power of".data, "**".data),
   ("square root".data, "sqrt".data), ("squared".data, "**2".data),
   ("cubed".data, "**3".data)]

/-- Modelled from the spec: conversational lead phrases removed by the
normalizer when they occur as a true prefix. -/
def leadPhrases : List (List Char) :=
  ["what is ".data, "calculate ".data, "compute ".data, "find ".data]

/-! ## MathExpressionParser._normalize_expression -/

/-- The prefix-removal loop: each configured phrase is tested once, in
order, against the current string; on a hit the phrase is cut and the
remainder re-stripped. -/
def stripPhrases : List (List Char) → List Char → List Char
  | [], e => e
  | p :: ps, e =>
    stripPhrases ps (if p.isPrefixOf e then trimL (e.drop p.length) else e)

/-- `MathExpressionParser._normalize_expression`: lowercase and strip,
remove lead phrases, drop `[?!]`, collapse whitespace runs. -/
def normalizeExpr (s : List Char) : List Char :=
  collapseWS ((stripPhrases leadPhrases (trimL (lowerL s))).filter
    fun c => !(c = '?' || c = '!'))

/-! ## MathExpressionParser._convert_to_math_expression -/

/-- One step of the operation-word loop, with the source's special cases:
`to the power of` → `**` and the `square root of` → `sqrt` rewrite. -/
def applyOpWord (e : List Char) (p : List Char × List Char) : List Char :=
  if p.1 = "to the power of".data then subWord "to the power of".data "**".data e
  else if p.1 = "square root".data then subWord "square root of".data "sqrt".data e
  else subWord p.1 p.2 e

/-- `re.sub(r'(\d+)\s*' + kw, r'(\1)**' + e2, s)` for the `squared` /
`cubed` postfix rules (`kw` the keyword, `e2` the exponent digit). -/
def sqcGo (kw : List Char) (e2 : Char) : ℕ → List Char → List Char
  | _ + 1, [] => []
  | skip + 1, _ :: cs => sqcGo kw e2 skip cs
  | 0, [] => []
  | 0, c :: cs =>
    if isDigitC c then
      let ds := (c :: cs).takeWhile isDigitC
      let r1 := (c :: cs).dropWhile isDigitC
      let ws := r1.takeWhile isWS
      let r2 := r1.dropWhile isWS
      if kw.isPrefixOf r2 then
        '(' :: (ds ++ ')' :: '*' :: '*' :: [e2]) ++
          sqcGo kw e2 (ds.length - 1 + ws.length + kw.length) cs
      else c :: sqcGo kw e2 0 cs
    else c :: sqcGo kw e2 0 cs

/-- `re.sub(r'\s*([+\-*/()%])\s*', r'\1', s)`: remove whitespace around
single-character operators. -/
def tightGo : ℕ → List Char → List Char
  | _ + 1, [] => []
  | skip + 1, _ :: cs => tightGo skip cs
  | 0, [] => []
  | 0, c :: cs =>
    if isOpC c then c :: tightGo (cs.takeWhile fun x => isWS x).length cs
    else if isWS c then
      let ws := (c :: cs).takeWhile fun x => isWS x
      let r1 := (c :: cs).dropWhile fun x => isWS x
      match r1 with
      | d :: dr =>
        if isOpC d then
          d :: tightGo (ws.length - 1 + 1 + (dr.takeWhile fun x => isWS x).length) cs
        else c :: tightGo 0 cs
      | [] => c :: tightGo 0 cs
    else c :: tightGo 0 cs

/-- `re.sub(r'\s*(\*\*)\s*', r'\1', s)`: remove whitespace around `**`. -/
def tightPowGo : ℕ → List Char → List Char
  | _ + 1, [] => []
  | skip + 1, _ :: cs => tightPowGo skip cs
  | 0, [] => []
  | 0, c :: cs =>
    if c = '*' && cs.head? = some '*' then
      '*' :: '*' :: tightPowGo (1 + (cs.tail.takeWhile fun x => isWS x).length) cs
    else if isWS c then
      let ws := (c :: cs).takeWhile fun x => isWS x
      let r1 := (c :: cs).dropWhile fun x => isWS x
      if r1.head? = some '*' && r1.tail.head? = some '*' then
        '*' :: '*' ::
          tightPowGo (ws.length - 1 + 2 + (r1.tail.tail.takeWhile fun x => isWS x).length) cs
      else c :: tightPowGo 0 cs
    else c :: tightPowGo 0 cs

/-- `MathExpressionParser._convert_to_math_expression`: number words, then
operation words (with the two special cases), then the `squared`/`cubed`
postfix rules, then the whitespace cleanup passes, then `strip()`. -/
def convertExpr (s : List Char) : List Char :=
  let e := wordToNumber.foldl (fun e p => subWord p.1 p.2 e) s
  let e := operationWords.foldl applyOpWord e
  let e := sqcGo "squared".data '2' 0 e
  let e := sqcGo "cubed".data '3' 0 e
  let e := tightGo 0 e
  let e := tightPowGo 0 e
  trimL e

/-! ## Dangerous-pattern scan

Modelled from the spec (§4.3 step 2 and §2): the deny-list covers dunder
access (`__\w+__`), the `import` keyword followed by whitespace, and calls
of `exec` / `eval` / `open` / `input` (keyword, optional whitespace, `(`),
matched case-insensitively anywhere in the expression.  The pattern list
itself lives in `config.yaml`, which is not part of the source tree. -/

/-- `\w*__` — word characters (possibly none) followed by `__`. -/
def uuAfterWords : List Char → Bool
  | [] => false
  | c :: cs => (c = '_' && cs.head? = some '_') || (isWordC c && uuAfterWords cs)

/-- Does `__\w+__` match at the start of the string? -/
def dunderAt : List Char → Bool
  | a :: b :: c :: cs => a = '_' && b = '_' && isWordC c && uuAfterWords cs
  | _ => false

/-- Does `kw\s+` match at the start of the string? -/
def kwSpaceAt (kw : List Char) (l : List Char) : Bool :=
  kw.isPrefixOf l &&
    match (l.drop kw.length).head? with
    | some c => isWS c
    | none => false

/-- Does `kw\s*\(` match at the start of the string? -/
def kwCallAt (kw : List Char) (l : List Char) : Bool :=
  kw.isPrefixOf l && ((l.drop kw.length).dropWhile fun c => isWS c).head? = some '('

/-- The security scan of `_evaluate_expression`: any dangerous pattern
matching anywhere (case-insensitively) flags the expression. -/
def matchesDangerous (s : List Char) : Bool :=
  let t := lowerL s
  existsSuffix dunderAt t ||
  existsSuffix (kwSpaceAt "import".data) t ||
  existsSuffix (kwCallAt "exec".data) t ||
  existsSuffix (kwCallAt "eval".data) t ||
  existsSuffix (kwCallAt "open".data) t ||
  existsSuffix (kwCallAt "input".data) t

/-! ## Safe-function substitution

`safe_functions` is modelled from the spec (§3): `factorial ↦
math.factorial` and `sqrt ↦ math.sqrt`.  The source substitutes, for each
configured name occurring as a substring of the expression,
`factorial\(([^)]+)\)` → `math.factorial(int(\1))` and
`sqrt\(([^)]+)\)` → `math.sqrt(\1)`, plus `sqrt\s+of\s+(\d+)` →
`math.sqrt(\1)`. -/

/-- `re.sub(kw + r'\(([^)]+)\)', pre + r'\1' + post, s)`: rewrite calls of
`kw` (argument = maximal run without `)`), keeping the argument between
`pre` and `post`. -/
def callSubGo (kw pre post : List Char) : ℕ → List Char → List Char
  | _ + 1, [] => []
  | skip + 1, _ :: cs => callSubGo kw pre post skip cs
  | 0, [] => []
  | 0, c :: cs =>
    let l := c :: cs
    let pat := kw ++ ['(']
    if pat.isPrefixOf l then
      let afterKw := l.drop pat.length
      let arg := afterKw.takeWhile fun x => !(x = ')')
      let rest := afterKw.dropWhile fun x => !(x = ')')
      if arg.length ≠ 0 && rest.head? = some ')' then
        pre ++ arg ++ post ++ callSubGo kw pre post (pat.length - 1 + arg.length + 1) cs
      else c :: callSubGo kw pre post 0 cs
    else c :: callSubGo kw pre post 0 cs

/-- `re.sub(r'sqrt\s+of\s+(\d+)', r'math.sqrt(\1)', s)`. -/
def sqrtOfGo : ℕ → List Char → List Char
  | _ + 1, [] => []
  | skip + 1, _ :: cs => sqrtOfGo skip cs
  | 0, [] => []
  | 0, c :: cs =>
    let l := c :: cs
    if "sqrt".data.isPrefixOf l then
      let r1 := l.drop 4
      let ws1 := r1.takeWhile fun x => isWS x
      let r2 := r1.dropWhile fun x => isWS x
      if ws1.length ≠ 0 && "of".data.isPrefixOf r2 then
        let r3 := r2.drop 2
        let ws2 := r3.takeWhile fun x => isWS x
        let r4 := r3.dropWhile fun x => isWS x
        let ds := r4.takeWhile isDigitC
        if ws2.length ≠ 0 && ds.length ≠ 0 then
          "math.sqrt(".data ++ ds ++ [')'] ++
            sqrtOfGo (3 + ws1.length + 2 + ws2.length + ds.length) cs
        else c :: sqrtOfGo 0 cs
      else c :: sqrtOfGo 0 cs
    else c :: sqrtOfGo 0 cs

/-- The safe-function loop of `_evaluate_expression` over the modelled
`safe_functions` table. -/
def substSafeFunctions (e : List Char) : List Char :=
  let e :=
    if containsSub "factorial".data e then
      callSubGo "factorial".data "math.factorial(int(".data "))".data 0 e
    else e
  if containsSub "sqrt".data e then
    sqrtOfGo 0 (callSubGo "sqrt".data "math.sqrt(".data ")".data 0 e)
  else e

/-! ## The sandboxed `eval`

`eval(expr, safe_dict)` with `safe_dict = {"__builtins__": {}, "math":
math, "abs": abs, "round": round, "max": max, "min": min, "sum": sum,
"pow": pow}` is modelled by a lexer and recursive-descent evaluator for
the Python arithmetic expression sublanguage the parser can produce:
int/float literals, `+ - * / % **`, unary signs, parentheses, and calls
of dotted names resolved against the namespace above.  `sum` applied to
numbers raises `TypeError` and `int` is **not** in the namespace (so a
call of it raises `NameError`); both surface as `synErr`, exactly like a
Python `SyntaxError`, via the catch-all of the source.  Number literals
with exponent notation and leading-dot floats are outside the sublanguage
(no claim reaches them). -/

inductive Tok where
  | num : PyNum → Tok
  | op : Char → Tok
  | pw : Tok
  | name : List Char → Tok
deriving DecidableEq, Repr

/-- Partial token being accumulated by the lexer. -/
inductive Pend where
  | pnum : ℕ → Pend
  | pfrac : ℕ → ℕ → ℕ → Pend
  | pname : List Char → Pend
  | pstar : Pend
deriving DecidableEq, Repr

def closePend : Pend → Tok
  | .pnum n => .num (.i n)
  | .pfrac n m k => .num (.f ((n : ℚ) + (m : ℚ) / 10 ^ k))
  | .pname a => .name a
  | .pstar => .op '*'

/-- Does `c` extend the partial token? -/
def extendPend : Pend → Char → Option Pend
  | .pnum n, c =>
    if isDigitC c then some (.pnum (10 * n + digitVal c))
    else if c = '.' then some (.pfrac n 0 0) else none
  | .pfrac n m k, c =>
    if isDigitC c then some (.pfrac n (10 * m + digitVal c) (k + 1)) else none
  | .pname a, c =>
    if isAlphaC c || isDigitC c || c = '_' || c = '.' then some (.pname (a ++ [c]))
    else none
  | .pstar, _ => none

/-- Lexer action for a character that starts a new token. -/
inductive LexAct where
  | push : Pend → LexAct
  | emit : Tok → LexAct
  | skip : LexAct
  | err : LexAct

def lexStart (c : Char) : LexAct :=
  if isWS c then .skip
  else if isDigitC c then .push (.pnum (digitVal c))
  else if isAlphaC c || c = '_' then .push (.pname [c])
  else if c = '*' then .push .pstar
  else if c = '+' || c = '-' || c = '/' || c = '%' || c = '(' || c = ')' || c = ',' then
    .emit (.op c)
  else .err

def lexGo : Option Pend → List Char → Option (List Tok)
  | none, [] => some []
  | some p, [] => some [closePend p]
  | some .pstar, c :: cs =>
    if c = '*' then (lexGo none cs).map fun ts => .pw :: ts
    else
      match lexStart c with
      | .skip => (lexGo none cs).map fun ts => .op '*' :: ts
      | .push p2 => (lexGo (some p2) cs).map fun ts => .op '*' :: ts
      | .emit t => (lexGo none cs).map fun ts => .op '*' :: t :: ts
      | .err => none
  | some p, c :: cs =>
    match extendPend p c with
    | some p2 => lexGo (some p2) cs
    | none =>
      match lexStart c with
      | .skip => (lexGo none cs).map fun ts => closePend p :: ts
      | .push p2 => (lexGo (some p2) cs).map fun ts => closePend p :: ts
      | .emit t => (lexGo none cs).map fun ts => closePend p :: t :: ts
      | .err => none
  | none, c :: cs =>
    match lexStart c with
    | .skip => lexGo none cs
    | .push p2 => lexGo (some p2) cs
    | .emit t => (lexGo none cs).map fun ts => t :: ts
    | .err => none

def lexExpr (s : List Char) : Option (List Tok) := lexGo none s

/-- Python `round` on a float: round half to even. -/
def bankerRound (q : ℚ) : ℤ :=
  if q - ⌊q⌋ < 1 / 2 then ⌊q⌋
  else if 1 / 2 < q - ⌊q⌋ then ⌊q⌋ + 1
  else if ⌊q⌋ % 2 = 0 then ⌊q⌋ else ⌊q⌋ + 1

/-- Name resolution and call semantics of the `eval` namespace. -/
def applyFn (nm : List Char) (args : List PyNum) : Except CalcErr PyNum :=
  if nm = "math.factorial".data then
    match args with
    | [.i n] => if n < 0 then .error .domain else .ok (.i (Nat.factorial n.toNat))
    | _ => .error .synErr
  else if nm = "math.sqrt".data then
    match args with
    | [x] => if x.toQ < 0 then .error .domain else .ok (.f (floatSqrt x.toQ))
    | _ => .error .synErr
  else if nm = "abs".data then
    match args with
    | [x] => .ok x.pyabs
    | _ => .error .synErr
  else if nm = "round".data then
    match args with
    | [.i n] => .ok (.i n)
    | [.f q] => .ok (.i (bankerRound q))
    | _ => .error .synErr
  else if nm = "max".data then
    match args with
    | [] => .error .synErr
    | a :: rest => .ok (rest.foldl (fun acc x => if acc.toQ < x.toQ then x else acc) a)
  else if nm = "min".data then
    match args with
    | [] => .error .synErr
    | a :: rest => .ok (rest.foldl (fun acc x => if x.toQ < acc.toQ then x else acc) a)
  else if nm = "pow".data then
    match args with
    | [a, b] => pypow a b
    | _ => .error .synErr
  else .error .synErr

mutual

/-- Additive level: `muldiv (('+'|'-') muldiv)*`. -/
def pExpr : ℕ → List Tok → Except CalcErr (PyNum × List Tok)
  | 0, _ => .error .synErr
  | fuel + 1, ts =>
    match pMul fuel ts with
    | .error e => .error e
    | .ok (v, ts1) => pAddLoop fuel v ts1

def pAddLoop : ℕ → PyNum → List Tok → Except CalcErr (PyNum × List Tok)
  | 0, _, _ => .error .synErr
  | fuel + 1, acc, ts =>
    match ts with
    | .op '+' :: rest =>
      match pMul fuel rest with
      | .error e => .error e
      | .ok (v, ts1) => pAddLoop fuel (acc.add v) ts1
    | .op '-' :: rest =>
      match pMul fuel rest with
      | .error e => .error e
      | .ok (v, ts1) => pAddLoop fuel (acc.sub v) ts1
    | _ => .ok (acc, ts)

/-- Multiplicative level: `unary (('*'|'/'|'%') unary)*`; division and
modulo by zero raise `ZeroDivisionError`. -/
def pMul : ℕ → List Tok → Except CalcErr (PyNum × List Tok)
  | 0, _ => .error .synErr
  | fuel + 1, ts =>
    match pUnary fuel ts with
    | .error e => .error e
    | .ok (v, ts1) => pMulLoop fuel v ts1

def pMulLoop : ℕ → PyNum → List Tok → Except CalcErr (PyNum × List Tok)
  | 0, _, _ => .error .synErr
  | fuel + 1, acc, ts =>
    match ts with
    | .op '*' :: rest =>
      match pUnary fuel rest with
      | .error e => .error e
      | .ok (v, ts1) => pMulLoop fuel (acc.mul v) ts1
    | .op '/' :: rest =>
      match pUnary fuel rest with
      | .error e => .error e
      | .ok (v, ts1) =>
        if v.toQ = 0 then .error .divByZero else pMulLoop fuel (acc.div v) ts1
    | .op '%' :: rest =>
      match pUnary fuel rest with
      | .error e => .error e
      | .ok (v, ts1) =>
        if v.toQ = 0 then .error .divByZero else pMulLoop fuel (acc.pymod v) ts1
    | _ => .ok (acc, ts)

/-- Unary level (Python `u_expr`): `('-'|'+') unary | power`. -/
def pUnary : ℕ → List Tok → Except CalcErr (PyNum × List Tok)
  | 0, _ => .error .synErr
  | fuel + 1, .op '-' :: rest =>
    match pUnary fuel rest with
    | .error e => .error e
    | .ok (v, ts1) => .ok (v.neg, ts1)
  | fuel + 1, .op '+' :: rest => pUnary fuel rest
  | fuel + 1, ts => pPow fuel ts

/-- Power level (Python `power`): `atom ['**' unary]`, right associative. -/
def pPow : ℕ → List Tok → Except CalcErr (PyNum × List Tok)
  | 0, _ => .error .synErr
  | fuel + 1, ts =>
    match pAtom fuel ts with
    | .error e => .error e
    | .ok (v, ts1) =>
      match ts1 with
      | .pw :: rest =>
        match pUnary fuel rest with
        | .error e => .error e
        | .ok (w, ts2) =>
          match pypow v w with
          | .error e => .error e
          | .ok r => .ok (r, ts2)
      | _ => .ok (v, ts1)

/-- Atoms: literals, parenthesized expressions, calls of known names. -/
def pAtom : ℕ → List Tok → Except CalcErr (PyNum × List Tok)
  | 0, _ => .error .synErr
  | fuel + 1, ts =>
    match ts with
    | .num v :: rest => .ok (v, rest)
    | .op '(' :: rest =>
      match pExpr fuel rest with
      | .error e => .error e
      | .ok (v, ts1) =>
        match ts1 with
        | .op ')' :: ts2 => .ok (v, ts2)
        | _ => .error .synErr
    | .name nm :: .op '(' :: rest =>
      match pArgs fuel rest with
      | .error e => .error e
      | .ok (args, ts1) =>
        match applyFn nm args with
        | .error e => .error e
        | .ok r => .ok (r, ts1)
    | _ => .error .synErr

/-- Argument lists: `expr (',' expr)* ')'` (consumes the closing paren). -/
def pArgs : ℕ → List Tok → Except CalcErr (List PyNum × List Tok)
  | 0, _ => .error .synErr
  | fuel + 1, ts =>
    match pExpr fuel ts with
    | .error e => .error e
    | .ok (v, ts1) => pArgsLoop fuel [v] ts1

def pArgsLoop : ℕ → List PyNum → List Tok → Except CalcErr (List PyNum × List Tok)
  | 0, _, _ => .error .synErr
  | fuel + 1, acc, ts =>
    match ts with
    | .op ',' :: rest =>
      match pExpr fuel rest with
      | .error e => .error e
      | .ok (v, ts1) => pArgsLoop fuel (v :: acc) ts1
    | .op ')' :: rest => .ok (acc.reverse, rest)
    | _ => .error .synErr

end

/-- `eval(expr, safe_dict)` on the arithmetic sublanguage. -/
def runExpr (s : List Char) : Except CalcErr PyNum :=
  match lexExpr s with
  | none => .error .synErr
  | some ts =>
    match pExpr (8 * ts.length + 16) ts with
    | .error e => .error e
    | .ok (v, []) => .ok v
    | .ok (_, _ :: _) => .error .synErr

/-! ## MathExpressionParser._evaluate_expression and parse_and_evaluate -/

/-- `MathExpressionParser._evaluate_expression`: dangerous-pattern scan,
safe-function substitution, sandboxed evaluation, result-magnitude check,
whole-float-to-int canonicalization. -/
def evaluateExpression (maxV : ℚ) (expr : List Char) : Except CalcErr PyNum :=
  if matchesDangerous expr then .error .security
  else
    match runExpr (substSafeFunctions expr) with
    | .error e => .error e
    | .ok result =>
      if maxV < |result.toQ| then .error .resultTooLarge
      else
        match result with
        | .f q => if q.den = 1 then .ok (.i q.num) else .ok (.f q)
        | .i n => .ok (.i n)

/-- `MathExpressionParser.parse_and_evaluate`: normalize, convert,
evaluate; every raised error is caught and returned as an error value. -/
def parseAndEvaluate (maxV : ℚ) (expression : String) : Except CalcErr PyNum :=
  evaluateExpression maxV (convertExpr (normalizeExpr expression.data))

/-! ## Decimal rendering of integers (for the universally quantified
claims about natural-language inputs) -/

/-- Digit list of `n` (most significant first), with explicit fuel so the
definition reduces in the kernel; `fuel ≥ n` suffices. -/
def renderNatGo : ℕ → ℕ → List Char
  | _, 0 => []
  | 0, _ + 1 => []
  | fuel + 1, n + 1 => renderNatGo fuel ((n + 1) / 10) ++ [digitChar ((n + 1) % 10)]

/-- Decimal rendering of a natural number (Python `str`). -/
def renderNat (n : ℕ) : List Char := if n = 0 then ['0'] else renderNatGo n n

/-- Decimal rendering of an integer (Python `str`). -/
def renderInt : ℤ → List Char
  | .ofNat n => renderNat n
  | .negSucc m => '-' :: renderNat (m + 1)

/-! ## Spec-side definition for the character-stripping claim -/

/-- Modelled from the spec (§4.3 step 1): the accepted character class —
digits, `.`, arithmetic operators, parentheses, `e`, whitespace. -/
def isAcceptedChar (c : Char) : Bool :=
  isDigitC c || c = '.' || isOpC c || c = 'e' || isWS c

/-- Modelled from the spec (§4.3 step 1): strip every character outside
the accepted class. -/
def stripUnaccepted (s : List Char) : List Char := s.filter isAcceptedChar


/-! ## Auxiliary predicates used by the proofs -/

/-- Whitespace normal form (the state after `collapseWS`): every
whitespace character is a single space and no two are adjacent. -/
def wsNorm : List Char → Prop
  | [] => True
  | [c] => isWS c = true → c = ' '
  | c :: d :: t => (isWS c = true → (c = ' ' ∧ isWS d = false)) ∧ wsNorm (d :: t)

/-- A nonempty, all-alphabetic word (every configured word and phrase head
satisfies the parts of this that the lemmas need). -/
def alphaWord (w : List Char) : Prop := w ≠ [] ∧ ∀ c ∈ w, isAlphaC c = true

/-- The previous-character tracker after scanning `d` (used to state the
`subGo` chunk lemmas). -/
def lastPrev : Option Char → List Char → Option Char
  | prev, [] => prev
  | _, c :: d => lastPrev (some c) d

/-- Token rendering of an integer literal as produced by the lexer on
`renderInt` (a minus operator token followed by the magnitude for
negatives). -/
def tokPre : ℤ → List Tok
  | .ofNat n => [.num (.i n)]
  | .negSucc m => [.op '-', .num (.i (m + 1))]

/-! # Helper lemmas -/

namespace PyNum

theorem toQ_i (n : ℤ) : (PyNum.i n).toQ = (n : ℚ) := rfl

theorem toQ_f (q : ℚ) : (PyNum.f q).toQ = q := rfl

theorem mul_toQ (a b : PyNum) : (a.mul b).toQ = a.toQ * b.toQ := by
  cases a <;> cases b <;> simp [PyNum.mul, PyNum.toQ]

theorem div_toQ (a b : PyNum) : (a.div b).toQ = a.toQ / b.toQ := rfl

theorem add_toQ (a b : PyNum) : (a.add b).toQ = a.toQ + b.toQ := by
  cases a <;> cases b <;> simp [PyNum.add, PyNum.toQ]

theorem sub_toQ (a b : PyNum) : (a.sub b).toQ = a.toQ - b.toQ := by
  cases a <;> cases b <;> simp [PyNum.sub, PyNum.toQ]

theorem pyabs_toQ (a : PyNum) : a.pyabs.toQ = |a.toQ| := by
  cases a <;> simp [PyNum.pyabs, PyNum.toQ]

theorem pymod_toQ (a b : PyNum) : (a.pymod b).toQ = a.toQ - b.toQ * ⌊a.toQ / b.toQ⌋ := by
  cases a <;> cases b <;> simp [PyNum.pymod, PyNum.toQ]

theorem div_isInt (a b : PyNum) : (a.div b).isInt = false := rfl

end PyNum

/-- Python `%` is bounded by the divisor: `|a - b⌊a/b⌋| ≤ |b|`. -/
theorem qmod_abs_le (a b : ℚ) (hb : b ≠ 0) : |a - b * ⌊a / b⌋| ≤ |b| := by
  have hfr : a - b * ⌊a / b⌋ = b * Int.fract (a / b) := by
    rw [Int.fract]
    field_simp
  rw [hfr, abs_mul]
  have h0 : 0 ≤ Int.fract (a / b) := Int.fract_nonneg _
  have h1 : Int.fract (a / b) < 1 := Int.fract_lt_one _
  calc |b| * |Int.fract (a / b)| = |b| * Int.fract (a / b) := by rw [abs_of_nonneg h0]
    _ ≤ |b| * 1 := by
        apply mul_le_mul_of_nonneg_left (le_of_lt h1) (abs_nonneg b)
    _ = |b| := mul_one _

/-- The dyadic square-root model does not exceed `maxV` on inputs
`0 ≤ q ≤ maxV` when `1 ≤ maxV`. -/
theorem floatSqrt_le {q maxV : ℚ} (hq : 0 ≤ q) (hle : q ≤ maxV) (hmax : 1 ≤ maxV) :
    floatSqrt q ≤ maxV := by
  have hmaxpos : (0 : ℚ) < maxV := lt_of_lt_of_le one_pos hmax
  have hTpos : (0 : ℚ) < 2 ^ 20 := by positivity
  have h44 : (4 : ℚ) ^ 20 = 2 ^ 20 * 2 ^ 20 := by norm_num
  unfold floatSqrt
  rw [div_le_iff₀ hTpos]
  by_contra hcon
  push_neg at hcon
  have h0 : (0 : ℚ) ≤ q * 4 ^ 20 := by positivity
  have hfl : 0 ≤ ⌊q * 4 ^ 20⌋ := Int.floor_nonneg.mpr h0
  have htn : ((⌊q * 4 ^ 20⌋).toNat : ℤ) = ⌊q * 4 ^ 20⌋ := Int.toNat_of_nonneg hfl
  have hmQ : (((⌊q * 4 ^ 20⌋).toNat : ℕ) : ℚ) ≤ q * (2 ^ 20 * 2 ^ 20) := by
    rw [← h44]
    calc (((⌊q * 4 ^ 20⌋).toNat : ℕ) : ℚ) = ((⌊q * 4 ^ 20⌋ : ℤ) : ℚ) := by
          exact_mod_cast congrArg (fun z : ℤ => (z : ℚ)) htn
      _ ≤ q * 4 ^ 20 := Int.floor_le _
  set m : ℕ := (⌊q * 4 ^ 20⌋).toNat with hm
  have hsq : Nat.sqrt m * Nat.sqrt m ≤ m := Nat.sqrt_le m
  have hsqQ : ((Nat.sqrt m : ℚ)) * (Nat.sqrt m : ℚ) ≤ (m : ℚ) := by exact_mod_cast hsq
  have hsq2 : (maxV * 2 ^ 20) * (maxV * 2 ^ 20) < (Nat.sqrt m : ℚ) * (Nat.sqrt m : ℚ) :=
    mul_self_lt_mul_self (le_of_lt (by positivity)) hcon
  have hqT : q * (2 ^ 20 * 2 ^ 20) ≤ maxV * (2 ^ 20 * 2 ^ 20) :=
    mul_le_mul_of_nonneg_right hle (by positivity)
  have hmm : maxV * (2 ^ 20 * 2 ^ 20) ≤ (maxV * 2 ^ 20) * (maxV * 2 ^ 20) := by
    have h1 : maxV * 1 ≤ maxV * maxV := mul_le_mul_of_nonneg_left hmax (le_of_lt hmaxpos)
    calc maxV * (2 ^ 20 * 2 ^ 20) = (maxV * 1) * (2 ^ 20 * 2 ^ 20) := by ring
      _ ≤ (maxV * maxV) * (2 ^ 20 * 2 ^ 20) :=
          mul_le_mul_of_nonneg_right h1 (by positivity)
      _ = (maxV * 2 ^ 20) * (maxV * 2 ^ 20) := by ring
  linarith

namespace CalculatorEngine

theorem mulLoop_ok (maxV : ℚ) :
    ∀ (ns : List PyNum) (acc r : PyNum), mulLoop maxV acc ns = .ok r →
      |r.toQ| ≤ maxV ∨ (ns = [] ∧ r = acc) := by
  intro ns
  induction ns with
  | nil => intro acc r h; right; simp [mulLoop] at h; simp [h]
  | cons c t ih =>
    intro acc r h
    rw [mulLoop] at h
    by_cases hg : maxV < |(acc.mul c).toQ|
    · rw [if_pos hg] at h; exact absurd h (by simp)
    · rw [if_neg hg] at h
      rcases ih (acc.mul c) r h with h1 | ⟨h1, h2⟩
      · exact Or.inl h1
      · subst h1; subst h2
        left
        simpa using le_of_not_lt hg

theorem divLoop_ok (maxV : ℚ) :
    ∀ (ns : List PyNum) (acc r : PyNum), divLoop maxV acc ns = .ok r →
      (|r.toQ| ≤ maxV ∧ r.isInt = false) ∨ (ns = [] ∧ r = acc) := by
  intro ns
  induction ns with
  | nil => intro acc r h; right; simp [divLoop] at h; simp [h]
  | cons c t ih =>
    intro acc r h
    rw [divLoop] at h
    by_cases hg : maxV < |(acc.div c).toQ|
    · rw [if_pos hg] at h; exact absurd h (by simp)
    · rw [if_neg hg] at h
      rcases ih (acc.div c) r h with h1 | ⟨h1, h2⟩
      · exact Or.inl h1
      · subst h1; subst h2
        left
        exact ⟨le_of_not_lt hg, PyNum.div_isInt acc c⟩

/-- If some running prefix product exceeds the bound, the multiplication
loop fails with the magnitude error. -/
theorem mulLoop_err (maxV : ℚ) :
    ∀ (ns : List PyNum) (acc : PyNum) (j : ℕ), 1 ≤ j → j ≤ ns.length →
      maxV < |acc.toQ * ((ns.take j).map PyNum.toQ).prod| →
      mulLoop maxV acc ns = .error .resultTooLarge := by
  intro ns
  induction ns with
  | nil => intro acc j h1 h2 _; simp at h2; omega
  | cons c t ih =>
    intro acc j h1 h2 hgt
    rw [mulLoop]
    by_cases hg : maxV < |(acc.mul c).toQ|
    · rw [if_pos hg]
    · rw [if_neg hg]
      rcases Nat.lt_or_ge 1 j with hj | hj
      · apply ih (acc.mul c) (j - 1) (by omega) (by simp at h2; omega)
        rw [PyNum.mul_toQ, mul_assoc]
        have hTake : (c :: t).take j = c :: t.take (j - 1) := by
          cases j with
          | zero => omega
          | succ k => simp [List.take_succ_cons]
        rw [hTake] at hgt
        simpa using hgt
      · have hj1 : j = 1 := by omega
        subst hj1
        exfalso
        apply hg
        rw [PyNum.mul_toQ]
        simpa using hgt

/-- If some running prefix quotient exceeds the bound, the division loop
fails with the magnitude error. -/
theorem divLoop_err (maxV : ℚ) :
    ∀ (ns : List PyNum) (acc : PyNum) (j : ℕ), 1 ≤ j → j ≤ ns.length →
      maxV < |acc.toQ / ((ns.take j).map PyNum.toQ).prod| →
      divLoop maxV acc ns = .error .resultTooLarge := by
  intro ns
  induction ns with
  | nil => intro acc j h1 h2 _; simp at h2; omega
  | cons c t ih =>
    intro acc j h1 h2 hgt
    rw [divLoop]
    by_cases hg : maxV < |(acc.div c).toQ|
    · rw [if_pos hg]
    · rw [if_neg hg]
      rcases Nat.lt_or_ge 1 j with hj | hj
      · apply ih (acc.div c) (j - 1) (by omega) (by simp at h2; omega)
        rw [PyNum.div_toQ, div_div]
        have hTake : (c :: t).take j = c :: t.take (j - 1) := by
          cases j with
          | zero => omega
          | succ k => simp [List.take_succ_cons]
        rw [hTake] at hgt
        simpa using hgt
      · have hj1 : j = 1 := by omega
        subst hj1
        exfalso
        apply hg
        rw [PyNum.div_toQ]
        simpa using hgt

end CalculatorEngine

/-! ### Per-operation bound lemmas (used by the invariant claim) -/

theorem floatSqrt_nonneg (q : ℚ) : 0 ≤ floatSqrt q := by
  unfold floatSqrt
  positivity

namespace CalculatorEngine

theorem add_ok_bound {maxV : ℚ} {ns : List PyNum} {r : PyNum}
    (h : add maxV ns = .ok r) : |r.toQ| ≤ maxV := by
  unfold add at h
  dsimp only [] at h
  split at h
  · exact absurd h (by simp)
  · split at h
    · split at h
      · exact absurd h (by simp)
      · rename_i hguard
        injection h with h'
        subst h'
        exact le_of_not_lt hguard
    · exact absurd h (by simp)

theorem subtract_ok_bound {maxV : ℚ} {m : PyNum} {ss : List PyNum} {r : PyNum}
    (h : subtract maxV m ss = .ok r) : |r.toQ| ≤ maxV := by
  unfold subtract at h
  dsimp only [] at h
  split at h
  · exact absurd h (by simp)
  · split at h
    · split at h
      · exact absurd h (by simp)
      · rename_i hguard
        injection h with h'
        subst h'
        exact le_of_not_lt hguard
    · exact absurd h (by simp)

theorem multiply_ok_bound {maxV : ℚ} {ns : List PyNum} {r : PyNum}
    (h : multiply maxV ns = .ok r) : |r.toQ| ≤ maxV := by
  unfold multiply at h
  split at h
  · exact absurd h (by simp)
  · rename_i hlen
    split at h
    · rcases mulLoop_ok maxV ns (.i 1) r h with hb | ⟨hnil, _⟩
      · exact hb
      · subst hnil; simp at hlen
    · exact absurd h (by simp)

theorem divide_ok_bound {maxV : ℚ} {d : PyNum} {ds : List PyNum} {r : PyNum}
    (h : divide maxV d ds = .ok r) : |r.toQ| ≤ maxV := by
  unfold divide at h
  split at h
  · exact absurd h (by simp)
  · rename_i hlen
    split at h
    · split at h
      · exact absurd h (by simp)
      · rcases divLoop_ok maxV ds d r h with ⟨hb, _⟩ | ⟨hnil, _⟩
        · exact hb
        · subst hnil; simp at hlen
    · exact absurd h (by simp)

theorem divide_ok_float {maxV : ℚ} {d : PyNum} {ds : List PyNum} {r : PyNum}
    (h : divide maxV d ds = .ok r) : r.isInt = false := by
  unfold divide at h
  split at h
  · exact absurd h (by simp)
  · rename_i hlen
    split at h
    · split at h
      · exact absurd h (by simp)
      · rcases divLoop_ok maxV ds d r h with ⟨_, hf⟩ | ⟨hnil, _⟩
        · exact hf
        · subst hnil; simp at hlen
    · exact absurd h (by simp)

theorem power_ok_bound {maxV : ℚ} {b e : PyNum} {r : PyNum}
    (h : power maxV b e = .ok r) : |r.toQ| ≤ maxV := by
  unfold power at h
  split at h
  · split at h
    · exact absurd h (by simp)
    · split at h
      · exact absurd h (by simp)
      · split at h
        · exact absurd h (by simp)
        · rename_i hguard
          injection h with h'
          subst h'
          exact le_of_not_lt hguard
  · exact absurd h (by simp)

theorem sqrt_ok_bound {maxV : ℚ} {x : PyNum} {r : PyNum} (hmax : 1 ≤ maxV)
    (h : sqrt maxV x = .ok r) : |r.toQ| ≤ maxV := by
  unfold sqrt at h
  split at h
  · rename_i hv
    split at h
    · exact absurd h (by simp)
    · rename_i hneg
      injection h with h'
      subst h'
      rw [PyNum.toQ, abs_of_nonneg (floatSqrt_nonneg _)]
      exact floatSqrt_le (le_of_not_lt hneg)
        (le_of_abs_le (hv x (by simp))) hmax
  · exact absurd h (by simp)

theorem sqrt_ok_float {maxV : ℚ} {x : PyNum} {r : PyNum}
    (h : sqrt maxV x = .ok r) : r.isInt = false := by
  unfold sqrt at h
  split at h
  · split at h
    · exact absurd h (by simp)
    · injection h with h'
      subst h'
      rfl
  · exact absurd h (by simp)

theorem factorial_ok_bound {maxV : ℚ} {x : PyNum} {r : PyNum}
    (h : factorial maxV x = .ok r) : |r.toQ| ≤ maxV := by
  unfold factorial at h
  dsimp only [] at h
  split at h
  · split at h
    · exact absurd h (by simp)
    · split at h
      · exact absurd h (by simp)
      · split at h
        · exact absurd h (by simp)
        · rename_i hguard
          injection h with h'
          subst h'
          rw [PyNum.toQ]
          rw [abs_of_nonneg (by positivity)]
          exact le_of_not_lt hguard
  · exact absurd h (by simp)

theorem modulo_ok_bound {maxV : ℚ} {a b : PyNum} {r : PyNum}
    (h : modulo maxV a b = .ok r) : |r.toQ| ≤ maxV := by
  unfold modulo at h
  split at h
  · rename_i hv
    split at h
    · exact absurd h (by simp)
    · rename_i hzero
      injection h with h'
      subst h'
      rw [PyNum.pymod_toQ]
      calc |a.toQ - b.toQ * ⌊a.toQ / b.toQ⌋| ≤ |b.toQ| := qmod_abs_le _ _ hzero
        _ ≤ maxV := hv b (by simp)
  · exact absurd h (by simp)

theorem absolute_ok_bound {maxV : ℚ} {x : PyNum} {r : PyNum}
    (h : absolute maxV x = .ok r) : |r.toQ| ≤ maxV := by
  unfold absolute at h
  split at h
  · rename_i hv
    injection h with h'
    subst h'
    rw [PyNum.pyabs_toQ, abs_abs]
    exact hv x (by simp)
  · exact absurd h (by simp)

end CalculatorEngine

/-- Structural property of `_evaluate_expression`: a successful result
whose value is a whole number is an int (the whole-float case is
canonicalized by the source). -/
theorem evaluateExpression_ok_int {maxV : ℚ} {e : List Char} {r : PyNum}
    (h : evaluateExpression maxV e = .ok r) (hd : r.toQ.den = 1) : r.isInt = true := by
  unfold evaluateExpression at h
  split at h
  · exact absurd h (by simp)
  · split at h
    · exact absurd h (by simp)
    · split at h
      · exact absurd h (by simp)
      · split at h
        · split at h
          · injection h with h'
            subst h'
            rfl
          · rename_i hq
            injection h with h'
            subst h'
            exact absurd hd hq
        · injection h with h'
          subst h'
          rfl

/-! # Claims -/

/-- C10: for every calculator operation (add, subtract, multiply, divide,
power, sqrt, factorial, modulo, absolute), whenever `maxValue ≥ 1` and the
operation returns a successful result `r`, `|r| ≤ maxValue` holds —
including for sqrt, modulo and absolute, which perform no explicit
result-magnitude check and rely on input validation alone. -/
theorem C10_results_bounded (maxV : ℚ) (hmax : 1 ≤ maxV) :
    (∀ ns r, CalculatorEngine.add maxV ns = .ok r → |r.toQ| ≤ maxV) ∧
    (∀ m ss r, CalculatorEngine.subtract maxV m ss = .ok r → |r.toQ| ≤ maxV) ∧
    (∀ ns r, CalculatorEngine.multiply maxV ns = .ok r → |r.toQ| ≤ maxV) ∧
    (∀ d ds r, CalculatorEngine.divide maxV d ds = .ok r → |r.toQ| ≤ maxV) ∧
    (∀ b e r, CalculatorEngine.power maxV b e = .ok r → |r.toQ| ≤ maxV) ∧
    (∀ x r, CalculatorEngine.sqrt maxV x = .ok r → |r.toQ| ≤ maxV) ∧
    (∀ x r, CalculatorEngine.factorial maxV x = .ok r → |r.toQ| ≤ maxV) ∧
    (∀ a b r, CalculatorEngine.modulo maxV a b = .ok r → |r.toQ| ≤ maxV) ∧
    (∀ x r, CalculatorEngine.absolute maxV x = .ok r → |r.toQ| ≤ maxV) :=
  ⟨fun _ _ h => CalculatorEngine.add_ok_bound h,
   fun _ _ _ h => CalculatorEngine.subtract_ok_bound h,
   fun _ _ h => CalculatorEngine.multiply_ok_bound h,
   fun _ _ _ h => CalculatorEngine.divide_ok_bound h,
   fun _ _ _ h => CalculatorEngine.power_ok_bound h,
   fun _ _ h => CalculatorEngine.sqrt_ok_bound hmax h,
   fun _ _ h => CalculatorEngine.factorial_ok_bound h,
   fun _ _ _ h => CalculatorEngine.modulo_ok_bound h,
   fun _ _ h => CalculatorEngine.absolute_ok_bound h⟩

/-- Witness for C10 at the default bound: `absolute(-7)` succeeds and its
result is within the bound. -/
theorem C10_witness :
    (1 : ℚ) ≤ maxValDefault ∧
    CalculatorEngine.absolute maxValDefault (.i (-7)) = .ok (.i 7) ∧
    |(PyNum.i 7).toQ| ≤ maxValDefault := by
  refine ⟨by decide, by decide, ?_⟩
  exact (C10_results_bounded maxValDefault (by decide)).2.2.2.2.2.2.2.2
    (.i (-7)) (.i 7) (by decide)

/-- C5: the factorial operation succeeds exactly on integer-valued inputs
`0 ≤ n ≤ 170` whose factorial passes the magnitude check; `factorial(170)`
succeeds iff `170! ≤ maxValue` and otherwise fails the magnitude check;
`factorial(171)` and every negative or non-integer input fail with a
domain error. -/
theorem C5_factorial_domain (maxV : ℚ) :
    (∀ x r, CalculatorEngine.factorial maxV x = .ok r →
      x.isIntegerValued = true ∧ 0 ≤ x.toQ.num ∧ x.toQ.num ≤ 170 ∧
      r = .i (Nat.factorial x.toQ.num.toNat) ∧
      ((Nat.factorial x.toQ.num.toNat : ℤ) : ℚ) ≤ maxV) ∧
    (((Nat.factorial 170 : ℤ) : ℚ) ≤ maxV →
      CalculatorEngine.factorial maxV (.i 170) = .ok (.i (Nat.factorial 170))) ∧
    (maxV < ((Nat.factorial 170 : ℤ) : ℚ) →
      CalculatorEngine.factorial maxV (.i 170) = .error .resultTooLarge) ∧
    (CalculatorEngine.factorial maxV (.i 171) = .error .domain) ∧
    (∀ n : ℤ, n < 0 → CalculatorEngine.factorial maxV (.i n) = .error .domain) ∧
    (∀ q : ℚ, q.den ≠ 1 → CalculatorEngine.factorial maxV (.f q) = .error .domain) := by
  refine ⟨?_, ?_, ?_, ?_, ?_, ?_⟩
  · intro x r h
    unfold CalculatorEngine.factorial at h
    dsimp only [] at h
    split at h
    · rename_i hint
      split at h
      · exact absurd h (by simp)
      · split at h
        · exact absurd h (by simp)
        · split at h
          · exact absurd h (by simp)
          · rename_i hneg h170 hguard
            injection h with h'
            subst h'
            exact ⟨hint, by omega, by omega, rfl, le_of_not_lt hguard⟩
    · exact absurd h (by simp)
  · intro hle
    unfold CalculatorEngine.factorial
    have hnum : (PyNum.i 170).toQ.num = 170 := by
      simp [PyNum.toQ]
    rw [if_pos (by decide : (PyNum.i 170).isIntegerValued = true)]
    dsimp only []
    rw [hnum]
    rw [if_neg (by decide), if_neg (by decide)]
    rw [if_neg (not_lt.mpr (by simpa using hle))]
    rw [(by decide : (170 : ℤ).toNat = 170)]
  · intro hlt
    unfold CalculatorEngine.factorial
    have hnum : (PyNum.i 170).toQ.num = 170 := by
      simp [PyNum.toQ]
    rw [if_pos (by decide : (PyNum.i 170).isIntegerValued = true)]
    dsimp only []
    rw [hnum]
    rw [if_neg (by decide), if_neg (by decide)]
    rw [if_pos (by simpa using hlt)]
  · unfold CalculatorEngine.factorial
    have hnum : (PyNum.i 171).toQ.num = 171 := by
      simp [PyNum.toQ]
    rw [if_pos (by decide : (PyNum.i 171).isIntegerValued = true)]
    dsimp only []
    rw [hnum]
    rw [if_neg (by decide), if_pos (by decide)]
  · intro n hn
    unfold CalculatorEngine.factorial
    have hnum : (PyNum.i n).toQ.num = n := by
      simp [PyNum.toQ]
    rw [if_pos (by simp [PyNum.isIntegerValued] : (PyNum.i n).isIntegerValued = true)]
    dsimp only []
    rw [hnum, if_pos hn]
  · intro q hq
    unfold CalculatorEngine.factorial
    rw [if_neg (by simp [PyNum.isIntegerValued, hq])]

set_option maxRecDepth 4000 in
/-- Witness for C5: `factorial(-3)` and `factorial(171)` fail with domain
errors, and at the default bound `factorial(170)` fails the magnitude
check. -/
theorem C5_witness :
    CalculatorEngine.factorial maxValDefault (.i (-3)) = .error .domain ∧
    CalculatorEngine.factorial maxValDefault (.i 171) = .error .domain ∧
    CalculatorEngine.factorial maxValDefault (.i 170) = .error .resultTooLarge := by
  refine ⟨?_, ?_, ?_⟩
  · exact (C5_factorial_domain maxValDefault).2.2.2.2.1 (-3) (by decide)
  · exact (C5_factorial_domain maxValDefault).2.2.2.1
  · exact (C5_factorial_domain maxValDefault).2.2.1 (by decide)

/-- C8: for multiply and divide, the running result is validated against
`maxValue` after every intermediate step: if any prefix product (or prefix
quotient) exceeds `maxValue` in magnitude, the operation fails with the
magnitude error — no hypothesis constrains the final value of the chain. -/
theorem C8_intermediate_checks (maxV : ℚ) :
    (∀ ns j, 2 ≤ ns.length → CalculatorEngine.validOk maxV ns → 1 ≤ j →
      j ≤ ns.length → maxV < |((ns.take j).map PyNum.toQ).prod| →
      CalculatorEngine.multiply maxV ns = .error .resultTooLarge) ∧
    (∀ d ds j, 1 ≤ ds.length → CalculatorEngine.validOk maxV (d :: ds) →
      1 ≤ j → j ≤ ds.length → maxV < |d.toQ / ((ds.take j).map PyNum.toQ).prod| →
      (∀ x ∈ ds, x.toQ ≠ 0) →
      CalculatorEngine.divide maxV d ds = .error .resultTooLarge) := by
  constructor
  · intro ns j hlen hv hj1 hj2 hgt
    unfold CalculatorEngine.multiply
    rw [if_neg (by omega), if_pos hv]
    apply CalculatorEngine.mulLoop_err maxV ns (.i 1) j hj1 hj2
    simpa [PyNum.toQ] using hgt
  · intro d ds j hlen hv hj1 hj2 hgt hnz
    unfold CalculatorEngine.divide
    rw [if_neg (by omega), if_pos hv, if_neg (by simpa using hnz)]
    exact CalculatorEngine.divLoop_err maxV ds d j hj1 hj2 hgt

/-- Witness for C8 with bound 100 / 50: `multiply(50, 50, 0)` exceeds the
bound after its second step (2500) although the final value 0 is within
bounds, and `divide(50, 0.5, 50)` exceeds it after its first step (100)
although the final value 2 is within bounds. -/
theorem C8_witness :
    CalculatorEngine.multiply (100 : ℚ) [.i 50, .i 50, .i 0] =
      .error .resultTooLarge ∧
    CalculatorEngine.divide (50 : ℚ) (.i 50) [.f (1 / 2), .i 50] =
      .error .resultTooLarge := by
  constructor
  · apply (C8_intermediate_checks (100 : ℚ)).1 [.i 50, .i 50, .i 0] 2
      (by decide) (by decide) (by decide) (by decide)
    norm_num [PyNum.toQ, lt_abs]
  · apply (C8_intermediate_checks (50 : ℚ)).2 (.i 50) [.f (1 / 2), .i 50] 1
      (by decide) ?_ (by decide) (by decide) ?_ ?_
    · intro n hn
      simp only [List.mem_cons, List.not_mem_nil, or_false] at hn
      rcases hn with h | h | h <;> subst h <;> norm_num [PyNum.toQ, abs_le]
    · norm_num [PyNum.toQ, lt_abs]
    · intro x hx
      simp only [List.mem_cons, List.not_mem_nil, or_false] at hx
      rcases hx with h | h <;> subst h <;> norm_num [PyNum.toQ]

/-- Counterexample to C3 as stated: `divide(10, 2)` succeeds with the
whole-number value 5, yet the result is a Python float (`5.0`), not an
integer — compute operations do not canonicalize whole-valued results. -/
theorem C3_counterexample :
    CalculatorEngine.divide maxValDefault (.i 10) [.i 2] = .ok (.f 5) ∧
    (PyNum.f 5).toQ.den = 1 ∧ (PyNum.f 5).isInt = false := by
  refine ⟨?_, by decide, rfl⟩
  norm_num [CalculatorEngine.divide, CalculatorEngine.divLoop, CalculatorEngine.validOk,
    PyNum.div, PyNum.toQ, maxValDefault, abs_le]

/-- C3 amended: `parseAndEvaluate` canonicalizes whole-valued results to
integers, but the compute operations return the native type of the
computation — divide and sqrt always return floating values, even when
the value is whole. -/
theorem C3_amended (maxV : ℚ) :
    (∀ s r, parseAndEvaluate maxV s = .ok r → r.toQ.den = 1 → r.isInt = true) ∧
    (∀ d ds r, CalculatorEngine.divide maxV d ds = .ok r → r.isInt = false) ∧
    (∀ x r, CalculatorEngine.sqrt maxV x = .ok r → r.isInt = false) := by
  refine ⟨?_, ?_, ?_⟩
  · intro s r h hd
    exact evaluateExpression_ok_int h hd
  · intro d ds r h
    exact CalculatorEngine.divide_ok_float h
  · intro x r h
    exact CalculatorEngine.sqrt_ok_float h

/-- Witness for C3 amended: `parseAndEvaluate "10 / 2"` produces the
integer 5 (the whole float `5.0` is canonicalized), while
`divide(10, 2)` produces the float `5.0`. -/
theorem C3_amended_witness :
    parseAndEvaluate maxValDefault "10 / 2" = .ok (.i 5) ∧
    (PyNum.i 5).isInt = true ∧
    CalculatorEngine.divide maxValDefault (.i 10) [.i 2] = .ok (.f 5) ∧
    (PyNum.f 5).isInt = false := by
  have hlex : lexExpr "10/2".data = some [.num (.i 10), .op '/', .num (.i 2)] := by decide
  have hpipe : convertExpr (normalizeExpr "10 / 2".data) = "10/2".data := by decide
  have hdanger : matchesDangerous "10/2".data = false := by decide
  have hsub : substSafeFunctions "10/2".data = "10/2".data := by decide
  have hrun : runExpr "10/2".data = .ok (.f 5) := by
    rw [runExpr, hlex]
    norm_num [pExpr, pMul, pUnary, pPow, pAtom, pAddLoop, pMulLoop, PyNum.div, PyNum.toQ]
  have hmain : parseAndEvaluate maxValDefault "10 / 2" = .ok (.i 5) := by
    rw [parseAndEvaluate, hpipe, evaluateExpression, hdanger, hsub, hrun]
    norm_num [PyNum.toQ, maxValDefault, abs_le]
  have hdiv : CalculatorEngine.divide maxValDefault (.i 10) [.i 2] = .ok (.f 5) := by
    norm_num [CalculatorEngine.divide, CalculatorEngine.divLoop, CalculatorEngine.validOk,
      PyNum.div, PyNum.toQ, maxValDefault, abs_le]
  exact ⟨hmain, (C3_amended maxValDefault).1 "10 / 2" (.i 5) hmain (by decide), hdiv,
    (C3_amended maxValDefault).2.1 (.i 10) [.i 2] (.f 5) hdiv⟩

/-! ### Character and normalization lemmas (for the idempotence claim) -/

theorem toNat_ofNat_lt {n : ℕ} (h : n < 55296) : (Char.ofNat n).toNat = n := by
  rw [Char.ofNat, dif_pos (Or.inl h)]
  rfl

theorem toLower_eq_self {c : Char} (h : ¬(65 ≤ c.toNat ∧ c.toNat ≤ 90)) :
    Char.toLower c = c := by
  unfold Char.toLower
  simp only []
  rw [if_neg h]

theorem toLower_not_upper (c : Char) :
    ¬(65 ≤ (Char.toLower c).toNat ∧ (Char.toLower c).toNat ≤ 90) := by
  unfold Char.toLower
  by_cases h : 65 ≤ c.toNat ∧ c.toNat ≤ 90
  · simp only []
    rw [if_pos h]
    have : (Char.ofNat (c.toNat + 32)).toNat = c.toNat + 32 := toNat_ofNat_lt (by omega)
    omega
  · simp only []
    rw [if_neg h]; exact h

theorem map_eq_self_of_id {f : Char → Char} {s : List Char}
    (h : ∀ c ∈ s, f c = c) : s.map f = s := by
  induction s with
  | nil => rfl
  | cons c cs ih =>
    simp only [List.map_cons]
    rw [h c (by simp), ih fun x hx => h x (by simp [hx])]

theorem mem_trimL {s : List Char} {c : Char} (h : c ∈ trimL s) : c ∈ s := by
  unfold trimL at h
  rw [List.mem_reverse] at h
  have h1 := (List.dropWhile_sublist _).subset h
  rw [List.mem_reverse] at h1
  exact (List.dropWhile_sublist _).subset h1

theorem mem_stripPhrases :
    ∀ (ps : List (List Char)) (s : List Char) (c : Char),
      c ∈ stripPhrases ps s → c ∈ s := by
  intro ps
  induction ps with
  | nil => intro s c h; exact h
  | cons p pt ih =>
    intro s c h
    rw [stripPhrases] at h
    have h1 := ih _ c h
    by_cases hp : p.isPrefixOf s
    · rw [if_pos hp] at h1
      exact (List.drop_subset _ _) (mem_trimL h1)
    · rwa [if_neg hp] at h1

theorem mem_collapseGo :
    ∀ (s : List Char) (f : Bool) (c : Char), c ∈ collapseGo f s → c = ' ' ∨ c ∈ s := by
  intro s
  induction s with
  | nil => intro f c h; simp [collapseGo] at h
  | cons d t ih =>
    intro f c h
    rw [collapseGo] at h
    by_cases hws : isWS d
    · rw [if_pos hws] at h
      by_cases hf : f
      · subst hf
        rw [if_pos rfl] at h
        rcases ih true c h with h1 | h1
        · exact Or.inl h1
        · exact Or.inr (by simp [h1])
      · simp only [hf] at h
        rw [if_neg (by simp)] at h
        rcases List.mem_cons.mp h with h1 | h1
        · exact Or.inl h1
        · rcases ih true c h1 with h2 | h2
          · exact Or.inl h2
          · exact Or.inr (by simp [h2])
    · rw [if_neg hws] at h
      rcases List.mem_cons.mp h with h1 | h1
      · exact Or.inr (by simp [h1])
      · rcases ih false c h1 with h2 | h2
        · exact Or.inl h2
        · exact Or.inr (by simp [h2])

theorem wsNorm_cons {c : Char} {l : List Char}
    (hl : wsNorm l)
    (hc : isWS c = true → c = ' ')
    (hd : ∀ d t, l = d :: t → isWS c = true → isWS d = false) : wsNorm (c :: l) := by
  cases l with
  | nil => exact hc
  | cons d t => exact ⟨fun hws => ⟨hc hws, hd d t rfl hws⟩, hl⟩

theorem collapseGo_wsNorm :
    ∀ s : List Char,
      wsNorm (collapseGo true s) ∧ wsNorm (collapseGo false s) ∧
      (∀ c, (collapseGo true s).head? = some c → isWS c = false) := by
  intro s
  induction s with
  | nil => exact ⟨trivial, trivial, by simp [collapseGo]⟩
  | cons d t ih =>
    obtain ⟨ih1, ih2, ih3⟩ := ih
    by_cases hws : isWS d
    · refine ⟨?_, ?_, ?_⟩
      · rw [collapseGo, if_pos hws, if_pos rfl]
        exact ih1
      · rw [collapseGo, if_pos hws, if_neg (by simp)]
        refine wsNorm_cons ih1 (fun _ => rfl) ?_
        intro e u he _
        exact ih3 e (by rw [he]; rfl)
      · intro c hc
        rw [collapseGo, if_pos hws, if_pos rfl] at hc
        exact ih3 c hc
    · have hbody : wsNorm (d :: collapseGo false t) := by
        refine wsNorm_cons ih2 (fun habs => absurd habs (by simp [hws])) ?_
        intro e u _ habs
        exact absurd habs (by simp [hws])
      refine ⟨?_, ?_, ?_⟩
      · rw [collapseGo, if_neg hws]
        exact hbody
      · rw [collapseGo, if_neg hws]
        exact hbody
      · intro c hc
        rw [collapseGo, if_neg hws] at hc
        simp only [List.head?_cons, Option.some.injEq] at hc
        subst hc
        simp [hws]

theorem collapse_id_of_wsNorm :
    ∀ s : List Char, wsNorm s →
      collapseGo false s = s ∧
      ((∀ c, s.head? = some c → isWS c = false) → collapseGo true s = s) := by
  intro s
  induction s with
  | nil => exact fun _ => ⟨rfl, fun _ => rfl⟩
  | cons d t ih =>
    intro hn
    have hnt : wsNorm t ∧ (isWS d = true → d = ' ' ∧ ∀ e u, t = e :: u → isWS e = false) := by
      cases t with
      | nil => exact ⟨trivial, fun hws => ⟨hn hws, by intro e u h; cases h⟩⟩
      | cons e u =>
        exact ⟨hn.2, fun hws => ⟨(hn.1 hws).1, by
          intro e2 u2 h2
          cases h2
          exact (hn.1 hws).2⟩⟩
    obtain ⟨ihf, iht⟩ := ih hnt.1
    constructor
    · rw [collapseGo]
      by_cases hws : isWS d
      · rw [if_pos hws, if_neg (by simp)]
        obtain ⟨hsp, hnext⟩ := hnt.2 hws
        subst hsp
        rw [iht ?_]
        intro c hc
        cases t with
        | nil => cases hc
        | cons e u =>
          simp only [List.head?_cons, Option.some.injEq] at hc
          rw [← hc]
          exact hnext e u rfl
      · rw [if_neg hws, ihf]
    · intro hhead
      rw [collapseGo]
      have hdws : isWS d = false := hhead d rfl
      rw [if_neg (by simp [hdws]), ihf]

theorem stripPhrases_id :
    ∀ (ps : List (List Char)) (s : List Char),
      (∀ p ∈ ps, p.isPrefixOf s = false) → stripPhrases ps s = s := by
  intro ps
  induction ps with
  | nil => intro s _; rfl
  | cons p pt ih =>
    intro s h
    rw [stripPhrases, if_neg (by simp [h p (by simp)])]
    exact ih s fun q hq => h q (by simp [hq])

/-- Counterexample to C9 as stated: the Normalizer is not idempotent.
Prefix stripping runs once per phrase per pass, so
`normalize("find find 2") = "find 2"` while a second normalization gives
`"2"`. -/
theorem C9_counterexample :
    normalizeExpr (normalizeExpr "find find 2".data) ≠
      normalizeExpr "find find 2".data := by decide

/-- C9 amended: the Normalizer is idempotent on every input whose
normalized form is already trimmed and does not start with a configured
lead phrase (a second pass can otherwise strip further, as prefix removal
runs once per phrase per pass and punctuation removal can expose new
leading phrases or edge whitespace). -/
theorem C9_amended (x : String)
    (h1 : trimL (normalizeExpr x.data) = normalizeExpr x.data)
    (h2 : ∀ p ∈ leadPhrases, p.isPrefixOf (normalizeExpr x.data) = false) :
    normalizeExpr (normalizeExpr x.data) = normalizeExpr x.data := by
  set y := normalizeExpr x.data with hy
  have hmem : ∀ c ∈ y, c = ' ' ∨ c ∈ lowerL x.data := by
    intro c hc
    rw [hy, normalizeExpr] at hc
    rcases mem_collapseGo _ _ _ hc with h | h
    · exact Or.inl h
    · right
      have h3 := List.mem_filter.mp h
      exact mem_trimL (mem_stripPhrases _ _ _ h3.1)
  have hlow : lowerL y = y := by
    apply map_eq_self_of_id
    intro c hc
    apply toLower_eq_self
    rcases hmem c hc with h | h
    · subst h; decide
    · rw [lowerL] at h
      obtain ⟨c0, _, hc0⟩ := List.mem_map.mp h
      rw [← hc0]
      exact toLower_not_upper c0
  have hpunct : ∀ c ∈ y, (!(c = '?' || c = '!')) = true := by
    intro c hc
    rw [hy, normalizeExpr] at hc
    rcases mem_collapseGo _ _ _ hc with h | h
    · subst h; decide
    · exact (List.mem_filter.mp h).2
  have hwsn : wsNorm y := by
    rw [hy, normalizeExpr]
    exact (collapseGo_wsNorm _).2.1
  calc normalizeExpr y
      = collapseWS ((stripPhrases leadPhrases (trimL (lowerL y))).filter
          fun c => !(c = '?' || c = '!')) := rfl
    _ = y := by
        rw [hlow, h1, stripPhrases_id _ _ h2, List.filter_eq_self.mpr hpunct]
        exact (collapse_id_of_wsNorm y hwsn).1

/-- Witness for C9 amended: `"2 + 3"` normalizes to itself-like trimmed
form with no lead phrase, and normalization is idempotent there. -/
theorem C9_amended_witness :
    trimL (normalizeExpr "2 + 3".data) = normalizeExpr "2 + 3".data ∧
    (∀ p ∈ leadPhrases, p.isPrefixOf (normalizeExpr "2 + 3".data) = false) ∧
    normalizeExpr (normalizeExpr "2 + 3".data) = normalizeExpr "2 + 3".data :=
  ⟨by decide, by decide, C9_amended "2 + 3" (by decide) (by decide)⟩

/-- C1: any input whose canonicalized expression matches a configured
dangerous pattern fails with the security error, before any safe-function
substitution or evaluation — the result does not depend on the rest of the
pipeline. -/
theorem C1_security_precedes (maxV : ℚ) (input : String)
    (h : matchesDangerous (convertExpr (normalizeExpr input.data)) = true) :
    parseAndEvaluate maxV input = .error .security := by
  rw [parseAndEvaluate, evaluateExpression, if_pos h]

/-- Witness for C1: the spec's canonical injection attempt is flagged by
the dunder pattern and rejected with the security error. -/
theorem C1_witness :
    matchesDangerous
      (convertExpr (normalizeExpr ("__import__('os').system('ls')" : String).data)) =
      true ∧
    parseAndEvaluate maxValDefault "__import__('os').system('ls')" = .error .security :=
  ⟨by decide, C1_security_precedes maxValDefault "__import__('os').system('ls')" (by decide)⟩

/-- C7 (code bug): `parseAndEvaluate "factorial of 5"` does not return
120 — the canonical string `factorial of 5` never matches the
`factorial\(...\)` rewrite, reaches `eval` unchanged and fails as a
syntax error.  Moreover even a direct `factorial(5)` fails: the rewrite
produces `math.factorial(int(5))`, and `int` is not in the sandbox
namespace, so evaluation raises `NameError`. -/
theorem C7_factorial_of_5_fails :
    parseAndEvaluate maxValDefault "factorial of 5" = .error .synErr ∧
    parseAndEvaluate maxValDefault "factorial of 5" ≠ .ok (.i 120) ∧
    substSafeFunctions ("factorial(5)" : String).data =
      ("math.factorial(int(5))" : String).data ∧
    evaluateExpression maxValDefault ("factorial(5)" : String).data = .error .synErr := by
  refine ⟨by decide, ?_, by decide, by decide⟩
  intro hcon
  have h1 : parseAndEvaluate maxValDefault "factorial of 5" = .error .synErr := by decide
  rw [h1] at hcon
  cases hcon

/-- Counterexample to C6 as stated: the Safe Evaluator performs no
character stripping.  The canonical expression of `"2 + 3a"` is `2+3a`,
which contains the unaccepted character `a`; the evaluator scans and
evaluates it unchanged and fails, whereas the spec's strip-first evaluator
(`stripUnaccepted`) would evaluate `2+3` to 5. -/
theorem C6_counterexample :
    convertExpr (normalizeExpr "2 + 3a".data) = "2+3a".data ∧
    isAcceptedChar 'a' = false ∧
    parseAndEvaluate maxValDefault "2 + 3a" = .error .synErr ∧
    stripUnaccepted "2+3a".data = "2+3".data ∧
    evaluateExpression maxValDefault (stripUnaccepted "2+3a".data) = .ok (.i 5) := by
  refine ⟨by decide, by decide, by decide, by decide, by decide⟩

/-- C6 amended: the evaluator strips nothing — the canonical expression is
scanned and evaluated unchanged.  On expressions all of whose characters
are accepted this coincides with the spec's strip-first behaviour; in
general the two behaviours differ, and an expression containing
unaccepted characters can still evaluate successfully as-is: the
canonical `abs(-3)` contains unaccepted letters yet evaluates to 3. -/
theorem C6_amended (maxV : ℚ) (s : List Char)
    (h : ∀ c ∈ s, isAcceptedChar c = true) :
    (evaluateExpression maxV (stripUnaccepted s) = evaluateExpression maxV s) ∧
    (∃ c ∈ ("abs(-3)" : String).data, isAcceptedChar c = false) ∧
    evaluateExpression maxValDefault ("abs(-3)" : String).data = .ok (.i 3) := by
  refine ⟨?_, ⟨'a', by decide, by decide⟩, by decide⟩
  rw [stripUnaccepted, List.filter_eq_self.mpr h]

/-- Witness for C6 amended at the accepted string `2+3`. -/
theorem C6_amended_witness :
    (∀ c ∈ ("2+3" : String).data, isAcceptedChar c = true) ∧
    (evaluateExpression maxValDefault (stripUnaccepted ("2+3" : String).data) =
      evaluateExpression maxValDefault ("2+3" : String).data) ∧
    (∃ c ∈ ("abs(-3)" : String).data, isAcceptedChar c = false) ∧
    evaluateExpression maxValDefault ("abs(-3)" : String).data = .ok (.i 3) :=
  ⟨by decide,
   (C6_amended maxValDefault ("2+3" : String).data (by decide)).1,
   (C6_amended maxValDefault ("2+3" : String).data (by decide)).2.1,
   (C6_amended maxValDefault ("2+3" : String).data (by decide)).2.2⟩

/-! ### Word-boundary substitution lemmas -/

theorem isWordC_of_alpha {c : Char} (h : isAlphaC c = true) : isWordC c = true := by
  simp [isWordC, h]

theorem subGo_nil (w r : List Char) (prev : Option Char) :
    subGo w r 0 prev [] = [] := rfl

theorem subGo_skip (w r : List Char) :
    ∀ (d t : List Char) (prev : Option Char),
      subGo w r d.length prev (d ++ t) = subGo w r 0 (lastPrev prev d) t := by
  intro d
  induction d with
  | nil => intro t prev; rfl
  | cons c d' ih =>
    intro t prev
    have h1 : subGo w r (c :: d').length prev ((c :: d') ++ t) =
        subGo w r d'.length (some c) (d' ++ t) := rfl
    rw [h1, ih]
    rfl

theorem subGo_chunk_nonalpha (w r : List Char) (wh : Char) (wt : List Char)
    (hw : w = wh :: wt) (hwh : isAlphaC wh = true) :
    ∀ (d : List Char), (∀ c ∈ d, isAlphaC c = false) →
      ∀ (t : List Char) (prev : Option Char),
        subGo w r 0 prev (d ++ t) = d ++ subGo w r 0 (lastPrev prev d) t := by
  intro d
  induction d with
  | nil => intro _ t prev; rfl
  | cons c d' ih =>
    intro hd t prev
    have hne : (wh == c) = false := by
      rw [beq_eq_false_iff_ne]
      intro he
      rw [he, hd c (by simp)] at hwh
      cases hwh
    have hcond : (w.isPrefixOf (c :: (d' ++ t)) && boundaryL prev &&
        boundaryR ((c :: (d' ++ t)).drop w.length)) = false := by
      rw [hw]
      simp [List.isPrefixOf, hne]
    rw [List.cons_append, subGo, if_neg (by simp [hcond]), ih fun x hx => hd x (by simp [hx])]
    rfl

theorem subGo_chunk_word (w r : List Char) :
    ∀ (d : List Char), (∀ c ∈ d, isWordC c = true) →
      ∀ (t : List Char) (pc : Char), isWordC pc = true →
        subGo w r 0 (some pc) (d ++ t) = d ++ subGo w r 0 (lastPrev (some pc) d) t := by
  intro d
  induction d with
  | nil => intro _ t pc _; rfl
  | cons c d' ih =>
    intro hd t pc hpc
    have hcond : (w.isPrefixOf (c :: (d' ++ t)) && boundaryL (some pc) &&
        boundaryR ((c :: (d' ++ t)).drop w.length)) = false := by
      simp [boundaryL, hpc]
    rw [List.cons_append, subGo, if_neg (by simp [hcond]),
      ih (fun x hx => hd x (by simp [hx])) t c (hd c (by simp))]
    rfl

theorem prefix_run_eq {w p t : List Char}
    (hw : alphaWord w) (hp : alphaWord p) (ht : boundaryR t = true)
    (hpre : w.isPrefixOf (p ++ t) = true)
    (hbr : boundaryR ((p ++ t).drop w.length) = true) : w = p := by
  rw [List.isPrefixOf_iff_prefix] at hpre
  have hwtake : w = (p ++ t).take w.length := List.prefix_iff_eq_take.mp hpre
  rcases Nat.lt_trichotomy w.length p.length with hk | hk | hk
  · exfalso
    have hdrop : (p ++ t).drop w.length = p.drop w.length ++ t :=
      List.drop_append_of_le_length (le_of_lt hk)
    have hlen : p.drop w.length ≠ [] := by
      apply List.ne_nil_of_length_pos
      rw [List.length_drop]
      omega
    obtain ⟨c, rest, hcr⟩ := List.exists_cons_of_ne_nil hlen
    have hcp : c ∈ p := by
      have hm : c ∈ p.drop w.length := by rw [hcr]; simp
      exact List.drop_subset _ _ hm
    have halpha := hp.2 c hcp
    rw [hdrop, hcr] at hbr
    simp [boundaryR, isWordC_of_alpha halpha] at hbr
  · rw [hwtake, hk, List.take_left]
  · exfalso
    cases t with
    | nil =>
      have hle : w.length ≤ p.length := by
        have h1 := hpre.length_le
        simpa using h1
      omega
    | cons c t' =>
      have hct : c ∈ w := by
        rw [hwtake, List.take_append_eq_append_take,
          List.take_of_length_le (by omega)]
        apply List.mem_append_right
        have h2 : w.length - p.length = (w.length - p.length - 1) + 1 := by omega
        rw [h2, List.take_succ_cons]
        simp
      have halpha := hw.2 c hct
      simp [boundaryR, isWordC_of_alpha halpha] at ht

theorem subGo_run (w r p t : List Char) (prev : Option Char)
    (hw : alphaWord w) (hp : alphaWord p)
    (hprev : boundaryL prev = true) (ht : boundaryR t = true) :
    subGo w r 0 prev (p ++ t) =
      (if w = p then r else p) ++ subGo w r 0 (lastPrev prev p) t := by
  obtain ⟨hpne, hpalpha⟩ := hp
  obtain ⟨ph, pt, hpc⟩ := List.exists_cons_of_ne_nil hpne
  by_cases hwp : w = p
  · rw [if_pos hwp]
    have hpre : w.isPrefixOf (p ++ t) = true := by
      rw [hwp]
      exact List.isPrefixOf_iff_prefix.mpr (List.prefix_append p t)
    have hdrop : (p ++ t).drop w.length = t := by
      rw [hwp]
      exact List.drop_left p t
    have hcond : (w.isPrefixOf (ph :: (pt ++ t)) && boundaryL prev &&
        boundaryR ((ph :: (pt ++ t)).drop w.length)) = true := by
      rw [(by rw [hpc]; rfl : ph :: (pt ++ t) = p ++ t), hpre, hprev, hdrop, ht]
      rfl
    rw [hpc, List.cons_append, subGo, if_pos (by simp [hcond])]
    have hwlen : w.length - 1 = pt.length := by
      rw [hwp, hpc]
      simp
    rw [hwlen, subGo_skip]
    rfl
  · rw [if_neg hwp]
    have hcond : (w.isPrefixOf (ph :: (pt ++ t)) && boundaryL prev &&
        boundaryR ((ph :: (pt ++ t)).drop w.length)) = false := by
      by_contra habs
      rw [Bool.not_eq_false] at habs
      simp only [Bool.and_eq_true] at habs
      apply hwp
      apply prefix_run_eq hw ⟨hpne, hpalpha⟩ ht
      · rw [← (by rw [hpc]; rfl : ph :: (pt ++ t) = p ++ t)]
        exact habs.1.1
      · rw [← (by rw [hpc]; rfl : ph :: (pt ++ t) = p ++ t)]
        exact habs.2
    rw [hpc, List.cons_append, subGo, if_neg (by simp [hcond])]
    have hph : isWordC ph = true :=
      isWordC_of_alpha (hpalpha ph (by rw [hpc]; simp))
    have hptw : ∀ c ∈ pt, isWordC c = true := fun c hc =>
      isWordC_of_alpha (hpalpha c (by rw [hpc]; simp [hc]))
    rw [subGo_chunk_word w r pt hptw t ph hph]
    rfl

theorem subWord_noalpha (w r : List Char) (wh : Char) (wt : List Char)
    (hw : w = wh :: wt) (hwh : isAlphaC wh = true)
    (s : List Char) (hs : ∀ c ∈ s, isAlphaC c = false) :
    subWord w r s = s := by
  have h := subGo_chunk_nonalpha w r wh wt hw hwh s hs [] none
  simpa [subWord, subGo_nil] using h

theorem subGo_noalpha (w r : List Char) (wh : Char) (wt : List Char)
    (hw : w = wh :: wt) (hwh : isAlphaC wh = true)
    (s : List Char) (hs : ∀ c ∈ s, isAlphaC c = false) (prev : Option Char) :
    subGo w r 0 prev s = s := by
  have h := subGo_chunk_nonalpha w r wh wt hw hwh s hs [] prev
  simpa [subGo_nil] using h

theorem subWord_shape (w r : List Char) (hw : alphaWord w)
    (d1 d2 : List Char) (hd1 : ∀ c ∈ d1, isAlphaC c = false)
    (hd2 : ∀ c ∈ d2, isAlphaC c = false) :
    subWord w r (d1 ++ [' '] ++ "plus".data ++ [' '] ++ d2) =
      d1 ++ [' '] ++ (if w = "plus".data then r else "plus".data) ++ [' '] ++ d2 := by
  obtain ⟨hne, halpha⟩ := hw
  obtain ⟨wh, wt, hwc⟩ := List.exists_cons_of_ne_nil hne
  have hwh : isAlphaC wh = true := halpha wh (by rw [hwc]; simp)
  rw [subWord]
  simp only [List.append_assoc]
  rw [subGo_chunk_nonalpha w r wh wt hwc hwh d1 hd1]
  rw [subGo_chunk_nonalpha w r wh wt hwc hwh [' '] (by decide)]
  simp only [lastPrev]
  rw [subGo_run w r ['p', 'l', 'u', 's'] ([' '] ++ d2) (some ' ') ⟨hne, halpha⟩
    ⟨by decide, by decide⟩ (by decide)
    (show boundaryR (' ' :: d2) = true from rfl)]
  simp only [lastPrev]
  rw [subGo_chunk_nonalpha w r wh wt hwc hwh [' '] (by decide)]
  simp only [lastPrev]
  rw [subGo_noalpha w r wh wt hwc hwh d2 hd2]

theorem foldl_subWord_id {ws : List (List Char × List Char)} {s : List Char}
    (h : ∀ p ∈ ws, subWord p.1 p.2 s = s) :
    ws.foldl (fun e p => subWord p.1 p.2 e) s = s := by
  induction ws with
  | nil => rfl
  | cons p pt ih =>
    simp only [List.foldl_cons]
    rw [h p (by simp)]
    exact ih fun q hq => h q (by simp [hq])

theorem applyOpWord_noalpha {e : List Char} (he : ∀ c ∈ e, isAlphaC c = false)
    (p : List Char × List Char)
    (hp : ∃ wh wt, p.1 = wh :: wt ∧ isAlphaC wh = true) :
    applyOpWord e p = e := by
  rw [applyOpWord]
  by_cases h1 : p.1 = "to the power of".data
  · rw [if_pos h1]
    exact subWord_noalpha _ _ 't' _ rfl (by decide) e he
  · rw [if_neg h1]
    by_cases h2 : p.1 = "square root".data
    · rw [if_pos h2]
      exact subWord_noalpha _ _ 's' _ rfl (by decide) e he
    · rw [if_neg h2]
      obtain ⟨wh, wt, hw1, hw2⟩ := hp
      exact subWord_noalpha _ _ wh wt hw1 hw2 e he

theorem foldl_applyOpWord_noalpha {ops : List (List Char × List Char)} {s : List Char}
    (hs : ∀ c ∈ s, isAlphaC c = false)
    (hops : ∀ p ∈ ops, ∃ wh wt, p.1 = wh :: wt ∧ isAlphaC wh = true) :
    ops.foldl applyOpWord s = s := by
  induction ops with
  | nil => rfl
  | cons p pt ih =>
    simp only [List.foldl_cons]
    rw [applyOpWord_noalpha hs p (hops p (by simp))]
    exact ih fun q hq => hops q (by simp [hq])

theorem opC_not_ws {c : Char} (h : isOpC c = true) : isWS c = false := by
  have h2 : (((((c = '+' ∨ c = '-') ∨ c = '*') ∨ c = '/') ∨ c = '(') ∨ c = ')') ∨ c = '%' := by
    simpa [isOpC] using h
  rcases h2 with ⟨⟨⟨⟨⟨h3 | h3⟩ | h3⟩ | h3⟩ | h3⟩ | h3⟩ | h3 <;> subst h3 <;> decide

theorem sqcGo_noalpha (kw : List Char) (e2 : Char) (kh : Char) (kt : List Char)
    (hk : kw = kh :: kt) (hkh : isAlphaC kh = true) :
    ∀ s : List Char, (∀ c ∈ s, isAlphaC c = false) → sqcGo kw e2 0 s = s := by
  intro s
  induction s with
  | nil => intro _; rfl
  | cons c cs ih =>
    intro hs
    rw [sqcGo]
    by_cases hd : isDigitC c
    · rw [if_pos hd]
      dsimp only []
      have hsub : ∀ x ∈ ((c :: cs).dropWhile isDigitC).dropWhile (fun y => isWS y),
          isAlphaC x = false := by
        intro x hx
        apply hs
        exact (List.dropWhile_sublist _).subset ((List.dropWhile_sublist _).subset hx)
      have hpre : kw.isPrefixOf
          (((c :: cs).dropWhile isDigitC).dropWhile fun y => isWS y) = false := by
        rw [hk]
        cases hr : ((c :: cs).dropWhile isDigitC).dropWhile fun y => isWS y with
        | nil => rfl
        | cons c2 r2 =>
          have hc2 : isAlphaC c2 = false := by
            apply hsub
            rw [hr]
            simp
          have hne : (kh == c2) = false := by
            rw [beq_eq_false_iff_ne]
            intro he
            rw [he, hc2] at hkh
            cases hkh
          simp [List.isPrefixOf, hne]
      rw [if_neg (by simp [hpre])]
      rw [ih fun x hx => hs x (by simp [hx])]
    · rw [if_neg hd]
      rw [ih fun x hx => hs x (by simp [hx])]

theorem tight_skip : ∀ (d t : List Char), tightGo d.length (d ++ t) = tightGo 0 t := by
  intro d
  induction d with
  | nil => intro t; rfl
  | cons c d' ih =>
    intro t
    have h1 : tightGo (c :: d').length ((c :: d') ++ t) = tightGo d'.length (d' ++ t) := rfl
    rw [h1, ih]

theorem tight_chunk : ∀ (d t : List Char),
    (∀ c ∈ d, isOpC c = false ∧ isWS c = false) →
    tightGo 0 (d ++ t) = d ++ tightGo 0 t := by
  intro d
  induction d with
  | nil => intro t _; rfl
  | cons c d' ih =>
    intro t hd
    rw [List.cons_append, tightGo, if_neg (by simp [(hd c (by simp)).1]),
      if_neg (by simp [(hd c (by simp)).2])]
    rw [ih t fun x hx => hd x (by simp [hx])]
    rfl

theorem tight_op (c : Char) (hc : isOpC c = true) (t : List Char) :
    tightGo 0 (c :: t) = c :: tightGo 0 (t.dropWhile fun x => isWS x) := by
  rw [tightGo, if_pos hc]
  have h := tight_skip (t.takeWhile fun x => isWS x) (t.dropWhile fun x => isWS x)
  rw [List.takeWhile_append_dropWhile] at h
  rw [h]

theorem tight_space_op (c : Char) (hc : isOpC c = true) (t : List Char) :
    tightGo 0 (' ' :: c :: t) = c :: tightGo 0 (t.dropWhile fun x => isWS x) := by
  rw [tightGo]
  rw [if_neg (by decide : ¬(isOpC ' ' = true))]
  rw [if_pos (by decide : isWS ' ' = true)]
  dsimp only []
  have hwsc : isWS c = false := opC_not_ws hc
  have htake : ((' ' :: c :: t).takeWhile fun x => isWS x) = [' '] := by
    rw [List.takeWhile_cons, if_pos (by decide : isWS ' ' = true),
      List.takeWhile_cons, if_neg (by simp [hwsc])]
  have hdrop : ((' ' :: c :: t).dropWhile fun x => isWS x) = c :: t := by
    rw [List.dropWhile_cons, if_pos (by decide : isWS ' ' = true),
      List.dropWhile_cons, if_neg (by simp [hwsc])]
  rw [htake, hdrop]
  dsimp only []
  rw [if_pos hc]
  have hn : ∀ k : ℕ, [' '].length - 1 + 1 + k = k + 1 := fun k => by
    simp only [List.length_singleton]
    omega
  rw [hn]
  have h1 : tightGo ((t.takeWhile fun x => isWS x).length + 1) (c :: t) =
      tightGo ((t.takeWhile fun x => isWS x).length) t := rfl
  rw [h1]
  have h := tight_skip (t.takeWhile fun x => isWS x) (t.dropWhile fun x => isWS x)
  rw [List.takeWhile_append_dropWhile] at h
  rw [h]

theorem tightPow_nostar : ∀ s : List Char, (∀ c ∈ s, ¬c = '*') →
    tightPowGo 0 s = s := by
  intro s
  induction s with
  | nil => intro _; rfl
  | cons c cs ih =>
    intro hs
    rw [tightPowGo]
    rw [if_neg (by simp [hs c (by simp)])]
    by_cases hws : isWS c
    · rw [if_pos hws]
      dsimp only []
      have hr : (((c :: cs).dropWhile fun x => isWS x).head? = some '*' ∧
          (((c :: cs).dropWhile fun x => isWS x).tail.head? = some '*')) → False := by
        rintro ⟨h1, _⟩
        cases hd : (c :: cs).dropWhile fun x => isWS x with
        | nil => rw [hd] at h1; cases h1
        | cons d dr =>
          rw [hd] at h1
          simp only [List.head?_cons, Option.some.injEq] at h1
          have hdm : d ∈ c :: cs := (List.dropWhile_sublist _).subset (by rw [hd]; simp)
          exact hs d hdm h1
      rw [if_neg (by simpa using hr)]
      rw [ih fun x hx => hs x (by simp [hx])]
    · rw [if_neg hws]
      rw [ih fun x hx => hs x (by simp [hx])]

theorem trimL_eq_self {s : List Char}
    (hh : ∀ c, s.head? = some c → isWS c = false)
    (hl : ∀ c, s.getLast? = some c → isWS c = false) : trimL s = s := by
  unfold trimL
  have h1 : (s.dropWhile fun c => isWS c) = s := by
    cases s with
    | nil => rfl
    | cons c cs => rw [List.dropWhile_cons, if_neg (by simp [hh c rfl])]
  rw [h1]
  have h2 : (s.reverse.dropWhile fun c => isWS c) = s.reverse := by
    cases hrev : s.reverse with
    | nil => rfl
    | cons c cs =>
      have hc : s.getLast? = some c := by
        rw [← List.head?_reverse, hrev]
        rfl
      rw [List.dropWhile_cons, if_neg (by simp [hl c hc])]
  rw [h2, List.reverse_reverse]

/-! ### Decimal rendering lemmas -/

theorem digitChar_toNat {d : ℕ} (hd : d < 10) : (digitChar d).toNat = 48 + d :=
  toNat_ofNat_lt (by omega)

theorem digitChar_isDigit {d : ℕ} (hd : d < 10) : isDigitC (digitChar d) = true := by
  simp only [isDigitC, digitChar_toNat hd, Bool.and_eq_true, decide_eq_true_iff]
  omega

theorem digitVal_digitChar {d : ℕ} (hd : d < 10) : digitVal (digitChar d) = d := by
  unfold digitVal
  rw [digitChar_toNat hd]
  omega

theorem renderNatGo_digits :
    ∀ (fuel n : ℕ), ∀ c ∈ renderNatGo fuel n, isDigitC c = true := by
  intro fuel
  induction fuel with
  | zero =>
    intro n c hc
    cases n <;> simp [renderNatGo] at hc
  | succ f ih =>
    intro n c hc
    cases n with
    | zero => simp [renderNatGo] at hc
    | succ m =>
      rw [renderNatGo] at hc
      rcases List.mem_append.mp hc with h | h
      · exact ih _ c h
      · have : c = digitChar ((m + 1) % 10) := by simpa using h
        rw [this]
        exact digitChar_isDigit (Nat.mod_lt _ (by norm_num))

theorem renderNat_digits (n : ℕ) : ∀ c ∈ renderNat n, isDigitC c = true := by
  intro c hc
  rw [renderNat] at hc
  by_cases h0 : n = 0
  · rw [if_pos h0] at hc
    have : c = '0' := by simpa using hc
    rw [this]
    decide
  · rw [if_neg h0] at hc
    exact renderNatGo_digits n n c hc

theorem renderNat_ne_nil (n : ℕ) : renderNat n ≠ [] := by
  rw [renderNat]
  by_cases h0 : n = 0
  · rw [if_pos h0]; simp
  · rw [if_neg h0]
    obtain ⟨m, hm⟩ := Nat.exists_eq_succ_of_ne_zero h0
    subst hm
    rw [renderNatGo]
    simp

theorem renderNatGo_val :
    ∀ (fuel n : ℕ), n ≤ fuel → ∀ acc : ℕ,
      (renderNatGo fuel n).foldl (fun a x => 10 * a + digitVal x) acc =
        acc * 10 ^ (renderNatGo fuel n).length + n := by
  intro fuel
  induction fuel with
  | zero =>
    intro n hn acc
    interval_cases n
    simp [renderNatGo]
  | succ f ih =>
    intro n hn acc
    cases n with
    | zero => simp [renderNatGo]
    | succ m =>
      have hdiv : (m + 1) / 10 < m + 1 := Nat.div_lt_self (Nat.succ_pos m) (by norm_num)
      rw [renderNatGo, List.foldl_append]
      have hfold1 : ([digitChar ((m + 1) % 10)]).foldl (fun a x => 10 * a + digitVal x)
          ((renderNatGo f ((m + 1) / 10)).foldl (fun a x => 10 * a + digitVal x) acc) =
          10 * ((renderNatGo f ((m + 1) / 10)).foldl (fun a x => 10 * a + digitVal x) acc) +
            digitVal (digitChar ((m + 1) % 10)) := rfl
      rw [hfold1, ih ((m + 1) / 10) (by omega) acc,
        digitVal_digitChar (Nat.mod_lt _ (by norm_num)),
        List.length_append, List.length_singleton, pow_succ, ← mul_assoc]
      have hdm := Nat.div_add_mod (m + 1) 10
      omega

theorem renderNat_val (n : ℕ) :
    (renderNat n).foldl (fun a x => 10 * a + digitVal x) 0 = n := by
  rw [renderNat]
  by_cases h0 : n = 0
  · rw [if_pos h0, h0]
    rfl
  · rw [if_neg h0, renderNatGo_val n n (le_refl n) 0]
    simp

/-! ### Character-class facts for rendered integers -/

theorem digit_bounds {c : Char} (h : isDigitC c = true) :
    48 ≤ c.toNat ∧ c.toNat ≤ 57 := by
  simpa [isDigitC, Bool.and_eq_true, decide_eq_true_iff] using h

theorem digit_not_alpha {c : Char} (h : isDigitC c = true) : isAlphaC c = false := by
  have hb := digit_bounds h
  simp only [isAlphaC, Bool.or_eq_false_iff, Bool.and_eq_false_iff,
    decide_eq_false_iff_not]
  omega

theorem digit_not_ws {c : Char} (h : isDigitC c = true) : isWS c = false := by
  by_contra habs
  rw [Bool.not_eq_false] at habs
  have h2 : ((((c = ' ' ∨ c = '\t') ∨ c = '\n') ∨ c = '\x0d') ∨ c = '\x0b') ∨ c = '\x0c' := by
    simpa [isWS] using habs
  rcases h2 with ⟨⟨⟨⟨h3 | h3⟩ | h3⟩ | h3⟩ | h3⟩ | h3 <;> subst h3 <;> cases h

theorem digit_not_op {c : Char} (h : isDigitC c = true) : isOpC c = false := by
  by_contra habs
  rw [Bool.not_eq_false] at habs
  have := opC_not_ws habs
  have h2 : (((((c = '+' ∨ c = '-') ∨ c = '*') ∨ c = '/') ∨ c = '(') ∨ c = ')') ∨ c = '%' := by
    simpa [isOpC] using habs
  rcases h2 with ⟨⟨⟨⟨⟨h3 | h3⟩ | h3⟩ | h3⟩ | h3⟩ | h3⟩ | h3 <;> subst h3 <;> cases h

theorem digit_ne {c x : Char} (h : isDigitC c = true) (hx : isDigitC x = false) :
    c ≠ x := fun he => by rw [he, hx] at h; cases h

theorem digit_not_upper {c : Char} (h : isDigitC c = true) :
    ¬(65 ≤ c.toNat ∧ c.toNat ≤ 90) := by
  have hb := digit_bounds h
  omega

/-- Every character of `renderInt A` is a digit or the minus sign. -/
theorem renderInt_chars (A : ℤ) :
    ∀ c ∈ renderInt A, isDigitC c = true ∨ c = '-' := by
  intro c hc
  cases A with
  | ofNat n => exact Or.inl (renderNat_digits n c hc)
  | negSucc m =>
    rcases List.mem_cons.mp hc with h | h
    · exact Or.inr h
    · exact Or.inl (renderNat_digits (m + 1) c h)

theorem renderInt_ne_nil (A : ℤ) : renderInt A ≠ [] := by
  cases A with
  | ofNat n => exact renderNat_ne_nil n
  | negSucc m => simp [renderInt]

theorem renderInt_not_alpha (A : ℤ) : ∀ c ∈ renderInt A, isAlphaC c = false := by
  intro c hc
  rcases renderInt_chars A c hc with h | h
  · exact digit_not_alpha h
  · rw [h]; decide

theorem renderInt_not_ws (A : ℤ) : ∀ c ∈ renderInt A, isWS c = false := by
  intro c hc
  rcases renderInt_chars A c hc with h | h
  · exact digit_not_ws h
  · rw [h]; decide

theorem renderInt_not_upper (A : ℤ) :
    ∀ c ∈ renderInt A, ¬(65 ≤ c.toNat ∧ c.toNat ≤ 90) := by
  intro c hc
  rcases renderInt_chars A c hc with h | h
  · exact digit_not_upper h
  · rw [h]; decide

/-! ### Normalization no-op lemmas for canonical input shapes -/

theorem wsNorm_cons_nonws {c : Char} {l : List Char}
    (hc : isWS c = false) (h : wsNorm l) : wsNorm (c :: l) := by
  cases l with
  | nil => exact fun habs => absurd habs (by simp [hc])
  | cons d t => exact ⟨fun habs => absurd habs (by simp [hc]), h⟩

theorem wsNorm_append_nonws {d l : List Char}
    (hd : ∀ c ∈ d, isWS c = false) (h : wsNorm l) : wsNorm (d ++ l) := by
  induction d with
  | nil => exact h
  | cons c d' ih =>
    exact wsNorm_cons_nonws (hd c (by simp)) (ih fun x hx => hd x (by simp [hx]))

theorem wsNorm_space_cons {l : List Char} (h : wsNorm l)
    (hhead : ∀ c, l.head? = some c → isWS c = false) : wsNorm (' ' :: l) := by
  cases l with
  | nil => exact fun _ => rfl
  | cons d t => exact ⟨fun _ => ⟨rfl, hhead d rfl⟩, h⟩

theorem wsNorm_nil : wsNorm [] := trivial

theorem lowerL_eq_self {s : List Char}
    (h : ∀ c ∈ s, ¬(65 ≤ c.toNat ∧ c.toNat ≤ 90)) : lowerL s = s :=
  map_eq_self_of_id fun c hc => toLower_eq_self (h c hc)

theorem isPrefixOf_false_of_head {ph c : Char} (pt cs : List Char) (hne : ph ≠ c) :
    (ph :: pt).isPrefixOf (c :: cs) = false := by
  simp [List.isPrefixOf, beq_eq_false_iff_ne.mpr hne]

/-- The generic no-op condition for `_normalize_expression`. -/
theorem normalizeExpr_plain {s : List Char}
    (hup : ∀ c ∈ s, ¬(65 ≤ c.toNat ∧ c.toNat ≤ 90))
    (hh : ∀ c, s.head? = some c → isWS c = false)
    (hl : ∀ c, s.getLast? = some c → isWS c = false)
    (hpre : ∀ p ∈ leadPhrases, p.isPrefixOf s = false)
    (hpunct : ∀ c ∈ s, (!(c = '?' || c = '!')) = true)
    (hws : wsNorm s) : normalizeExpr s = s := by
  rw [normalizeExpr, lowerL_eq_self hup, trimL_eq_self hh hl,
    stripPhrases_id _ _ hpre, List.filter_eq_self.mpr hpunct]
  exact (collapse_id_of_wsNorm s hws).1

theorem normalize_id_C2 (A B : ℤ) :
    normalizeExpr (renderInt A ++ [' '] ++ "plus".data ++ [' '] ++ renderInt B) =
      renderInt A ++ [' '] ++ "plus".data ++ [' '] ++ renderInt B := by
  obtain ⟨c0, cr, hA⟩ := List.exists_cons_of_ne_nil (renderInt_ne_nil A)
  have hc0 : isDigitC c0 = true ∨ c0 = '-' :=
    renderInt_chars A c0 (by rw [hA]; simp)
  apply normalizeExpr_plain
  · intro c hc
    simp only [List.append_assoc, List.mem_append] at hc
    rcases hc with h | h | h | h | h
    · exact renderInt_not_upper A c h
    · have he : c = ' ' := by simpa using h
      subst he; decide
    · have he : c = 'p' ∨ c = 'l' ∨ c = 'u' ∨ c = 's' := by simpa using h
      rcases he with he | he | he | he <;> subst he <;> decide
    · have he : c = ' ' := by simpa using h
      subst he; decide
    · exact renderInt_not_upper B c h
  · intro c hc
    rw [hA] at hc
    simp only [List.cons_append, List.head?_cons, Option.some.injEq] at hc
    subst hc
    rcases hc0 with h | h
    · exact digit_not_ws h
    · rw [h]; decide
  · intro c hc
    rw [List.getLast?_append_of_ne_nil _ (renderInt_ne_nil B)] at hc
    have hm : c ∈ renderInt B := List.mem_of_getLast?_eq_some hc
    rcases renderInt_chars B c hm with h | h
    · exact digit_not_ws h
    · rw [h]; decide
  · intro p hp
    have hdne : ∀ x : Char, isDigitC x = false → x ≠ '-' → c0 ≠ x := by
      intro x hx hxm
      rcases hc0 with h | h
      · exact digit_ne h hx
      · rw [h]
        exact fun he => hxm he.symm
    fin_cases hp
    · rw [hA]
      simp only [List.cons_append]
      exact isPrefixOf_false_of_head _ _ fun he => hdne 'w' (by decide) (by decide) he.symm
    · rw [hA]
      simp only [List.cons_append]
      exact isPrefixOf_false_of_head _ _ fun he => hdne 'c' (by decide) (by decide) he.symm
    · rw [hA]
      simp only [List.cons_append]
      exact isPrefixOf_false_of_head _ _ fun he => hdne 'c' (by decide) (by decide) he.symm
    · rw [hA]
      simp only [List.cons_append]
      exact isPrefixOf_false_of_head _ _ fun he => hdne 'f' (by decide) (by decide) he.symm
  · intro c hc
    simp only [List.append_assoc, List.mem_append] at hc
    have hne : c ≠ '?' ∧ c ≠ '!' := by
      rcases hc with h | h | h | h | h
      · rcases renderInt_chars A c h with h2 | h2
        · exact ⟨digit_ne h2 (by decide), digit_ne h2 (by decide)⟩
        · subst h2; exact ⟨by decide, by decide⟩
      · have he : c = ' ' := by simpa using h
        subst he; exact ⟨by decide, by decide⟩
      · have he : c = 'p' ∨ c = 'l' ∨ c = 'u' ∨ c = 's' := by simpa using h
        rcases he with he | he | he | he <;> subst he <;> exact ⟨by decide, by decide⟩
      · have he : c = ' ' := by simpa using h
        subst he; exact ⟨by decide, by decide⟩
      · rcases renderInt_chars B c h with h2 | h2
        · exact ⟨digit_ne h2 (by decide), digit_ne h2 (by decide)⟩
        · subst h2; exact ⟨by decide, by decide⟩
    simp [hne.1, hne.2]
  · obtain ⟨b0, br, hB⟩ := List.exists_cons_of_ne_nil (renderInt_ne_nil B)
    have hb0 : isWS b0 = false := by
      rcases renderInt_chars B b0 (by rw [hB]; simp) with h | h
      · exact digit_not_ws h
      · rw [h]; decide
    simp only [List.append_assoc]
    apply wsNorm_append_nonws (renderInt_not_ws A)
    rw [List.singleton_append]
    apply wsNorm_space_cons
    · apply wsNorm_append_nonws (by decide)
      rw [List.singleton_append]
      apply wsNorm_space_cons
      · have hwb := wsNorm_append_nonws (renderInt_not_ws B) wsNorm_nil
        rwa [List.append_nil] at hwb
      · intro c hc
        rw [hB] at hc
        simp only [List.head?_cons, Option.some.injEq] at hc
        subst hc
        exact hb0
    · intro c hc
      simp only [List.cons_append, List.head?_cons, Option.some.injEq] at hc
      subst hc
      decide

/-! ### Conversion no-op / cleanup lemmas for canonical input shapes -/

theorem dropWhileWS_cons_ne {c : Char} (t : List Char) (hc : isWS c = false) :
    ((c :: t).dropWhile fun x => isWS x) = c :: t := by
  rw [List.dropWhile_cons, if_neg (by simp [hc])]

theorem tight_renderInt (A : ℤ) (t : List Char) :
    tightGo 0 (renderInt A ++ t) = renderInt A ++ tightGo 0 t := by
  have hchunk : ∀ n, tightGo 0 (renderNat n ++ t) = renderNat n ++ tightGo 0 t :=
    fun n => tight_chunk (renderNat n) t fun c hc =>
      ⟨digit_not_op (renderNat_digits n c hc), digit_not_ws (renderNat_digits n c hc)⟩
  cases A with
  | ofNat n => exact hchunk n
  | negSucc m =>
    show tightGo 0 (('-' :: renderNat (m + 1)) ++ t) =
      ('-' :: renderNat (m + 1)) ++ tightGo 0 t
    rw [List.cons_append]
    rw [tight_op '-' (by decide) (renderNat (m + 1) ++ t)]
    obtain ⟨b0, b', hB⟩ := List.exists_cons_of_ne_nil (renderNat_ne_nil (m + 1))
    have hb0 : isWS b0 = false :=
      digit_not_ws (renderNat_digits (m + 1) b0 (by rw [hB]; simp))
    rw [hB, List.cons_append, dropWhileWS_cons_ne _ hb0, ← List.cons_append, ← hB]
    rw [hchunk (m + 1), List.cons_append]

theorem convert_shape_C2 (A B : ℤ) :
    convertExpr (renderInt A ++ [' '] ++ "plus".data ++ [' '] ++ renderInt B) =
      renderInt A ++ '+' :: renderInt B := by
  have hWN : wordToNumber.foldl (fun e p => subWord p.1 p.2 e)
      (renderInt A ++ [' '] ++ "plus".data ++ [' '] ++ renderInt B) =
      renderInt A ++ [' '] ++ "plus".data ++ [' '] ++ renderInt B := by
    apply foldl_subWord_id
    intro p hp
    have hcond : alphaWord p.1 ∧ p.1 ≠ "plus".data := by
      fin_cases hp <;> exact ⟨⟨by decide, by decide⟩, by decide⟩
    rw [subWord_shape p.1 p.2 hcond.1 _ _ (renderInt_not_alpha A) (renderInt_not_alpha B),
        if_neg hcond.2]
  have hS1 : ∀ c ∈ (renderInt A ++ [' '] ++ ['+'] ++ [' '] ++ renderInt B),
      isAlphaC c = false := by
    intro c hc
    simp only [List.append_assoc, List.mem_append] at hc
    rcases hc with h | h | h | h | h
    · exact renderInt_not_alpha A c h
    · have he : c = ' ' := by simpa using h
      subst he; decide
    · have he : c = '+' := by simpa using h
      subst he; decide
    · have he : c = ' ' := by simpa using h
      subst he; decide
    · exact renderInt_not_alpha B c h
  have hOp : operationWords.foldl applyOpWord
      (renderInt A ++ [' '] ++ "plus".data ++ [' '] ++ renderInt B) =
      renderInt A ++ [' '] ++ ['+'] ++ [' '] ++ renderInt B := by
    have h1 : applyOpWord (renderInt A ++ [' '] ++ "plus".data ++ [' '] ++ renderInt B)
        ("plus".data, "+".data) =
        renderInt A ++ [' '] ++ ['+'] ++ [' '] ++ renderInt B := by
      rw [applyOpWord, if_neg (by decide), if_neg (by decide)]
      rw [subWord_shape "plus".data "+".data ⟨by decide, by decide⟩ _ _
        (renderInt_not_alpha A) (renderInt_not_alpha B), if_pos rfl]
    rw [show operationWords = ("plus".data, "+".data) ::
        [("minus".data, "-".data), ("times".data, "*".data),
         ("divided by".data, "/".data), ("to the power of".data, "**".data),
         ("square root".data, "sqrt".data), ("squared".data, "**2".data),
         ("cubed".data, "**3".data)] from rfl, List.foldl_cons, h1]
    exact foldl_applyOpWord_noalpha hS1
      (by intro p hp; fin_cases hp <;> exact ⟨_, _, rfl, by decide⟩)
  have hsq1 : sqcGo "squared".data '2' 0
      (renderInt A ++ [' '] ++ ['+'] ++ [' '] ++ renderInt B) =
      renderInt A ++ [' '] ++ ['+'] ++ [' '] ++ renderInt B :=
    sqcGo_noalpha "squared".data '2' 's' _ rfl (by decide) _ hS1
  have hsq2 : sqcGo "cubed".data '3' 0
      (renderInt A ++ [' '] ++ ['+'] ++ [' '] ++ renderInt B) =
      renderInt A ++ [' '] ++ ['+'] ++ [' '] ++ renderInt B :=
    sqcGo_noalpha "cubed".data '3' 'c' _ rfl (by decide) _ hS1
  have hT2 : tightGo 0 (renderInt A ++ [' '] ++ ['+'] ++ [' '] ++ renderInt B) =
      renderInt A ++ '+' :: renderInt B := by
    have hshape : renderInt A ++ [' '] ++ ['+'] ++ [' '] ++ renderInt B =
        renderInt A ++ (' ' :: '+' :: ' ' :: renderInt B) := by
      simp
    rw [hshape, tight_renderInt A, tight_space_op '+' (by decide)]
    rw [List.dropWhile_cons, if_pos (by decide)]
    obtain ⟨b0, br, hB⟩ := List.exists_cons_of_ne_nil (renderInt_ne_nil B)
    have hb0 : isWS b0 = false := renderInt_not_ws B b0 (by rw [hB]; simp)
    rw [hB, dropWhileWS_cons_ne br hb0, ← hB]
    have hB2 := tight_renderInt B []
    rw [List.append_nil] at hB2
    rw [hB2, show tightGo 0 ([] : List Char) = [] from rfl, List.append_nil]
  have hstar : ∀ c ∈ renderInt A ++ '+' :: renderInt B, ¬c = '*' := by
    intro c hc
    simp only [List.mem_append, List.mem_cons] at hc
    rcases hc with h | h | h
    · rcases renderInt_chars A c h with h2 | h2
      · exact digit_ne h2 (by decide)
      · rw [h2]; decide
    · subst h; decide
    · rcases renderInt_chars B c h with h2 | h2
      · exact digit_ne h2 (by decide)
      · rw [h2]; decide
  have hPow : tightPowGo 0 (renderInt A ++ '+' :: renderInt B) =
      renderInt A ++ '+' :: renderInt B := tightPow_nostar _ hstar
  have htrim : trimL (renderInt A ++ '+' :: renderInt B) =
      renderInt A ++ '+' :: renderInt B := by
    apply trimL_eq_self
    · intro c hc
      obtain ⟨a0, ar, hA⟩ := List.exists_cons_of_ne_nil (renderInt_ne_nil A)
      rw [hA, List.cons_append, List.head?_cons] at hc
      simp only [Option.some.injEq] at hc
      subst hc
      have ha0 : a0 ∈ renderInt A := by rw [hA]; simp
      exact renderInt_not_ws A a0 ha0
    · intro c hc
      rw [List.getLast?_append_of_ne_nil _ (List.cons_ne_nil '+' (renderInt B))] at hc
      rw [show ('+' :: renderInt B) = ['+'] ++ renderInt B from rfl,
        List.getLast?_append_of_ne_nil _ (renderInt_ne_nil B)] at hc
      exact renderInt_not_ws B c (List.mem_of_getLast?_eq_some hc)
  show trimL (tightPowGo 0 (tightGo 0 (sqcGo "cubed".data '3' 0 (sqcGo "squared".data '2' 0
    (operationWords.foldl applyOpWord (wordToNumber.foldl (fun e p => subWord p.1 p.2 e)
      (renderInt A ++ [' '] ++ "plus".data ++ [' '] ++ renderInt B))))))) =
    renderInt A ++ '+' :: renderInt B
  rw [hWN, hOp, hsq1, hsq2, hT2, hPow, htrim]

/-! ### The security scan and safe-function substitution are no-ops on
purely arithmetic strings (no letters, no underscores) -/

theorem existsSuffix_false (p : List Char → Bool) :
    ∀ s : List Char, (∀ t : List Char, t <:+ s → p t = false) → existsSuffix p s = false := by
  intro s
  induction s with
  | nil => intro h; exact h [] (List.suffix_refl [])
  | cons c cs ih =>
    intro h
    rw [existsSuffix, h (c :: cs) (List.suffix_refl _), Bool.false_or]
    exact ih fun t ht => h t (ht.trans (List.suffix_cons c cs))

theorem isPrefixOf_false_suffix {s : List Char} (halpha : ∀ c ∈ s, isAlphaC c = false)
    {kh : Char} (hkh : isAlphaC kh = true) (kt : List Char) :
    ∀ t, t <:+ s → (kh :: kt).isPrefixOf t = false := by
  intro t ht
  cases t with
  | nil => rfl
  | cons c cs =>
    have hc : isAlphaC c = false := halpha c (ht.subset (by simp))
    refine isPrefixOf_false_of_head kt cs fun he => ?_
    rw [← he] at hc
    rw [hkh] at hc
    cases hc

theorem kwSpaceAt_false {kh : Char} {kt t : List Char}
    (hpre : (kh :: kt).isPrefixOf t = false) : kwSpaceAt (kh :: kt) t = false := by
  rw [kwSpaceAt, hpre, Bool.false_and]

theorem kwCallAt_false {kh : Char} {kt t : List Char}
    (hpre : (kh :: kt).isPrefixOf t = false) : kwCallAt (kh :: kt) t = false := by
  rw [kwCallAt, hpre, Bool.false_and]

theorem dunderAt_false : ∀ (t : List Char), (∀ c, t.head? = some c → c ≠ '_') →
    dunderAt t = false
  | [], _ => rfl
  | [_], _ => rfl
  | [_, _], _ => rfl
  | a :: _ :: _ :: _, h => by
    have ha : a ≠ '_' := h a rfl
    simp [dunderAt, ha]

theorem matchesDangerous_plain {s : List Char}
    (halpha : ∀ c ∈ s, isAlphaC c = false)
    (hund : ∀ c ∈ s, c ≠ '_') :
    matchesDangerous s = false := by
  have hup : ∀ c ∈ s, ¬(65 ≤ c.toNat ∧ c.toNat ≤ 90) := by
    intro c hc hab
    have h2 := halpha c hc
    simp only [isAlphaC, Bool.or_eq_false_iff, Bool.and_eq_false_iff,
      decide_eq_false_iff_not] at h2
    omega
  have hlow : lowerL s = s := lowerL_eq_self hup
  have h1 : existsSuffix dunderAt s = false := by
    apply existsSuffix_false
    intro t ht
    apply dunderAt_false
    intro c hc
    cases t with
    | nil => cases hc
    | cons a cs =>
      simp only [List.head?_cons, Option.some.injEq] at hc
      subst hc
      exact hund a (ht.subset (by simp))
  have h2 : existsSuffix (kwSpaceAt "import".data) s = false :=
    existsSuffix_false _ s fun t ht =>
      kwSpaceAt_false (isPrefixOf_false_suffix halpha (by decide) _ t ht)
  have h3 : existsSuffix (kwCallAt "exec".data) s = false :=
    existsSuffix_false _ s fun t ht =>
      kwCallAt_false (isPrefixOf_false_suffix halpha (by decide) _ t ht)
  have h4 : existsSuffix (kwCallAt "eval".data) s = false :=
    existsSuffix_false _ s fun t ht =>
      kwCallAt_false (isPrefixOf_false_suffix halpha (by decide) _ t ht)
  have h5 : existsSuffix (kwCallAt "open".data) s = false :=
    existsSuffix_false _ s fun t ht =>
      kwCallAt_false (isPrefixOf_false_suffix halpha (by decide) _ t ht)
  have h6 : existsSuffix (kwCallAt "input".data) s = false :=
    existsSuffix_false _ s fun t ht =>
      kwCallAt_false (isPrefixOf_false_suffix halpha (by decide) _ t ht)
  rw [matchesDangerous]
  show (existsSuffix dunderAt (lowerL s) ||
    existsSuffix (kwSpaceAt "import".data) (lowerL s) ||
    existsSuffix (kwCallAt "exec".data) (lowerL s) ||
    existsSuffix (kwCallAt "eval".data) (lowerL s) ||
    existsSuffix (kwCallAt "open".data) (lowerL s) ||
    existsSuffix (kwCallAt "input".data) (lowerL s)) = false
  rw [hlow, h1, h2, h3, h4, h5, h6]
  rfl

theorem containsSub_false {s : List Char} (halpha : ∀ c ∈ s, isAlphaC c = false)
    {kh : Char} (hkh : isAlphaC kh = true) (kt : List Char) :
    containsSub (kh :: kt) s = false := by
  rw [containsSub]
  exact existsSuffix_false _ s fun t ht => isPrefixOf_false_suffix halpha hkh kt t ht

theorem substSafeFunctions_plain {e : List Char} (halpha : ∀ c ∈ e, isAlphaC c = false) :
    substSafeFunctions e = e := by
  have hfac : containsSub "factorial".data e = false := containsSub_false halpha (by decide) _
  have hsq : containsSub "sqrt".data e = false := containsSub_false halpha (by decide) _
  simp [substSafeFunctions, hfac, hsq]

/-! ### Lexing rendered integers -/

theorem lexGo_digits : ∀ (ds : List Char), (∀ c ∈ ds, isDigitC c = true) →
    ∀ (acc : ℕ) (t : List Char),
    lexGo (some (.pnum acc)) (ds ++ t) =
      lexGo (some (.pnum (ds.foldl (fun a c => 10 * a + digitVal c) acc))) t := by
  intro ds
  induction ds with
  | nil => intro _ acc t; rfl
  | cons d dt ih =>
    intro h acc t
    have hd : isDigitC d = true := h d (by simp)
    have hext : extendPend (.pnum acc) d = some (.pnum (10 * acc + digitVal d)) := by
      rw [extendPend, if_pos hd]
    rw [List.cons_append, List.foldl_cons]
    rw [show lexGo (some (.pnum acc)) (d :: (dt ++ t)) =
        lexGo (some (.pnum (10 * acc + digitVal d))) (dt ++ t) from by
      rw [lexGo, hext]
      intro hc
      cases hc]
    exact ih (fun c hc => h c (by simp [hc])) _ t

theorem lexGo_pnum_plus (n : ℕ) (cs : List Char) :
    lexGo (some (.pnum n)) ('+' :: cs) =
      (lexGo none cs).map fun ts => .num (.i n) :: .op '+' :: ts := rfl

theorem lexGo_none_minus (cs : List Char) :
    lexGo none ('-' :: cs) = (lexGo none cs).map fun ts => .op '-' :: ts := rfl

theorem lexGo_pnum_nil (n : ℕ) : lexGo (some (.pnum n)) [] = some [.num (.i n)] := rfl

theorem lexNat (n : ℕ) (t : List Char) :
    lexGo none (renderNat n ++ t) = lexGo (some (.pnum n)) t := by
  obtain ⟨d0, ds, hd⟩ := List.exists_cons_of_ne_nil (renderNat_ne_nil n)
  have hd0 : isDigitC d0 = true := renderNat_digits n d0 (by rw [hd]; simp)
  have hds : ∀ c ∈ ds, isDigitC c = true := fun c hc =>
    renderNat_digits n c (by rw [hd]; simp [hc])
  have hv := renderNat_val n
  rw [hd, List.foldl_cons] at hv
  have hv' : ds.foldl (fun a c => 10 * a + digitVal c) (digitVal d0) = n := by
    simpa using hv
  have hstart : lexStart d0 = .push (.pnum (digitVal d0)) := by
    rw [lexStart, if_neg (by simp [digit_not_ws hd0]), if_pos hd0]
  rw [hd, List.cons_append]
  rw [show lexGo none (d0 :: (ds ++ t)) = lexGo (some (.pnum (digitVal d0))) (ds ++ t) from by
    rw [lexGo, hstart]]
  rw [lexGo_digits ds hds (digitVal d0) t, hv']

theorem lexExpr_C2 (A B : ℤ) :
    lexExpr (renderInt A ++ '+' :: renderInt B) =
      some (tokPre A ++ .op '+' :: tokPre B) := by
  have hB : lexGo none (renderInt B) = some (tokPre B) := by
    cases B with
    | ofNat m =>
      have h := lexNat m []
      rw [List.append_nil] at h
      exact h.trans (lexGo_pnum_nil m)
    | negSucc k =>
      show lexGo none ('-' :: renderNat (k + 1)) = some [.op '-', .num (.i (k + 1))]
      rw [lexGo_none_minus]
      have h := lexNat (k + 1) []
      rw [List.append_nil] at h
      rw [h, lexGo_pnum_nil]
      rfl
  cases A with
  | ofNat n =>
    show lexGo none (renderNat n ++ '+' :: renderInt B) =
      some (.num (.i n) :: .op '+' :: tokPre B)
    rw [lexNat n, lexGo_pnum_plus, hB]
    rfl
  | negSucc m =>
    show lexGo none ('-' :: (renderNat (m + 1) ++ '+' :: renderInt B)) =
      some (.op '-' :: .num (.i (m + 1)) :: .op '+' :: tokPre B)
    rw [lexGo_none_minus, lexNat (m + 1), lexGo_pnum_plus, hB]
    rfl

/-! ### Parsing the token shape `A + B` -/

theorem pExpr_C2 (f : ℕ) (A B : ℤ) :
    pExpr (f + 12) (tokPre A ++ .op '+' :: tokPre B) = .ok (.i (A + B), []) := by
  cases A with
  | ofNat n =>
    cases B with
    | ofNat m => rfl
    | negSucc k => rfl
  | negSucc j =>
    cases B with
    | ofNat m => rfl
    | negSucc k => rfl

theorem runExpr_C2 (A B : ℤ) :
    runExpr (renderInt A ++ '+' :: renderInt B) = .ok (.i (A + B)) := by
  rw [runExpr, lexExpr_C2 A B]
  show (match pExpr (8 * (tokPre A ++ .op '+' :: tokPre B).length + 16)
      (tokPre A ++ .op '+' :: tokPre B) with
    | .error e => (.error e : Except CalcErr PyNum)
    | .ok (v, []) => .ok v
    | .ok (_, _ :: _) => .error .synErr) = .ok (.i (A + B))
  rw [show 8 * (tokPre A ++ .op '+' :: tokPre B).length + 16 =
      (8 * (tokPre A ++ .op '+' :: tokPre B).length + 4) + 12 from by omega]
  rw [pExpr_C2]

/-- C2 (amended): for all pairs of integers within the magnitude bound,
evaluating the natural-language expression `A plus B` through the full
parser pipeline returns exactly the result of `CalculatorEngine.add` on
`[A, B]`.  (Over all numbers the equality fails: on float operands the
parser canonicalizes a whole-valued result to an int while `add` keeps
the float — see the counterexample above.) -/
theorem C2_plus_refines_add (maxV : ℚ) (A B : ℤ)
    (hA : |(A : ℚ)| ≤ maxV) (hB : |(B : ℚ)| ≤ maxV) :
    parseAndEvaluate maxV
      (String.mk (renderInt A ++ [' '] ++ "plus".data ++ [' '] ++ renderInt B)) =
      CalculatorEngine.add maxV [.i A, .i B] := by
  have halpha : ∀ c ∈ renderInt A ++ '+' :: renderInt B, isAlphaC c = false := by
    intro c hc
    simp only [List.mem_append, List.mem_cons] at hc
    rcases hc with h | h | h
    · exact renderInt_not_alpha A c h
    · subst h; decide
    · exact renderInt_not_alpha B c h
  have hund : ∀ c ∈ renderInt A ++ '+' :: renderInt B, c ≠ '_' := by
    intro c hc
    simp only [List.mem_append, List.mem_cons] at hc
    rcases hc with h | h | h
    · rcases renderInt_chars A c h with h2 | h2
      · exact digit_ne h2 (by decide)
      · subst h2; decide
    · subst h; decide
    · rcases renderInt_chars B c h with h2 | h2
      · exact digit_ne h2 (by decide)
      · subst h2; decide
  rw [parseAndEvaluate]
  rw [show (String.mk (renderInt A ++ [' '] ++ "plus".data ++ [' '] ++ renderInt B)).data =
      renderInt A ++ [' '] ++ "plus".data ++ [' '] ++ renderInt B from rfl]
  rw [normalize_id_C2 A B, convert_shape_C2 A B]
  rw [evaluateExpression]
  rw [matchesDangerous_plain halpha hund]
  rw [if_neg (by decide : ¬(false = true))]
  rw [substSafeFunctions_plain halpha, runExpr_C2 A B]
  show (if maxV < |(PyNum.i (A + B)).toQ| then (.error .resultTooLarge : Except CalcErr PyNum)
    else .ok (.i (A + B))) = CalculatorEngine.add maxV [.i A, .i B]
  rw [CalculatorEngine.add]
  rw [if_neg (by simp : ¬([PyNum.i A, PyNum.i B].length < 2))]
  have hvalid : CalculatorEngine.validOk maxV [PyNum.i A, PyNum.i B] := by
    intro x hx
    rcases List.mem_cons.mp hx with rfl | hx
    · exact hA
    · rcases List.mem_cons.mp hx with rfl | hx
      · exact hB
      · cases hx
  rw [if_pos hvalid]
  show _ = (if maxV < |(PyNum.i (0 + A + B)).toQ| then (.error .resultTooLarge : Except CalcErr PyNum)
    else .ok (.i (0 + A + B)))
  rw [zero_add]

/-- Witness for C2 at `A = 2`, `B = 3` and the default bound. -/
theorem C2_witness :
    |((2 : ℤ) : ℚ)| ≤ maxValDefault ∧ |((3 : ℤ) : ℚ)| ≤ maxValDefault ∧
      parseAndEvaluate maxValDefault
        (String.mk (renderInt 2 ++ [' '] ++ "plus".data ++ [' '] ++ renderInt 3)) =
        CalculatorEngine.add maxValDefault [.i 2, .i 3] :=
  ⟨by norm_num [maxValDefault], by norm_num [maxValDefault],
   C2_plus_refines_add maxValDefault 2 3 (by norm_num [maxValDefault])
     (by norm_num [maxValDefault])⟩

/-! ### The canonical division/modulo inputs `A op 0` through the pipeline -/

theorem normalize_id_C4 (A : ℤ) (op : Char)
    (hup : ¬(65 ≤ op.toNat ∧ op.toNat ≤ 90)) (hws : isWS op = false)
    (hq : op ≠ '?') (he : op ≠ '!') :
    normalizeExpr (renderInt A ++ [' ', op, ' ', '0']) =
      renderInt A ++ [' ', op, ' ', '0'] := by
  obtain ⟨c0, cr, hA⟩ := List.exists_cons_of_ne_nil (renderInt_ne_nil A)
  have hc0 : isDigitC c0 = true ∨ c0 = '-' :=
    renderInt_chars A c0 (by rw [hA]; simp)
  apply normalizeExpr_plain
  · intro c hc
    simp only [List.mem_append, List.mem_cons, List.not_mem_nil, or_false] at hc
    rcases hc with h | h | h | h | h
    · exact renderInt_not_upper A c h
    · subst h; decide
    · subst h; exact hup
    · subst h; decide
    · subst h; decide
  · intro c hc
    rw [hA] at hc
    simp only [List.cons_append, List.head?_cons, Option.some.injEq] at hc
    subst hc
    rcases hc0 with h | h
    · exact digit_not_ws h
    · rw [h]; decide
  · intro c hc
    rw [List.getLast?_append_of_ne_nil _ (by simp : ([' ', op, ' ', '0'] : List Char) ≠ [])] at hc
    rw [show ([' ', op, ' ', '0'] : List Char).getLast? = some '0' from rfl] at hc
    simp only [Option.some.injEq] at hc
    subst hc
    decide
  · intro p hp
    have hdne : ∀ x : Char, isDigitC x = false → x ≠ '-' → c0 ≠ x := by
      intro x hx hxm
      rcases hc0 with h | h
      · exact digit_ne h hx
      · rw [h]
        exact fun he2 => hxm he2.symm
    fin_cases hp
    · rw [hA]
      simp only [List.cons_append]
      exact isPrefixOf_false_of_head _ _ fun he2 => hdne 'w' (by decide) (by decide) he2.symm
    · rw [hA]
      simp only [List.cons_append]
      exact isPrefixOf_false_of_head _ _ fun he2 => hdne 'c' (by decide) (by decide) he2.symm
    · rw [hA]
      simp only [List.cons_append]
      exact isPrefixOf_false_of_head _ _ fun he2 => hdne 'c' (by decide) (by decide) he2.symm
    · rw [hA]
      simp only [List.cons_append]
      exact isPrefixOf_false_of_head _ _ fun he2 => hdne 'f' (by decide) (by decide) he2.symm
  · intro c hc
    simp only [List.mem_append, List.mem_cons, List.not_mem_nil, or_false] at hc
    have hne : c ≠ '?' ∧ c ≠ '!' := by
      rcases hc with h | h | h | h | h
      · rcases renderInt_chars A c h with h2 | h2
        · exact ⟨digit_ne h2 (by decide), digit_ne h2 (by decide)⟩
        · subst h2; exact ⟨by decide, by decide⟩
      · subst h; exact ⟨by decide, by decide⟩
      · subst h; exact ⟨hq, he⟩
      · subst h; exact ⟨by decide, by decide⟩
      · subst h; exact ⟨by decide, by decide⟩
    simp [hne.1, hne.2]
  · apply wsNorm_append_nonws (renderInt_not_ws A)
    apply wsNorm_space_cons
    · apply wsNorm_cons_nonws hws
      apply wsNorm_space_cons
      · exact fun h => absurd h (by decide)
      · intro c hc
        simp only [List.head?_cons, Option.some.injEq] at hc
        subst hc
        decide
    · intro c hc
      simp only [List.head?_cons, Option.some.injEq] at hc
      subst hc
      exact hws

theorem convert_id_C4 (A : ℤ) (op : Char)
    (halphaOp : isAlphaC op = false) (hop : isOpC op = true) (hstar : op ≠ '*') :
    convertExpr (renderInt A ++ [' ', op, ' ', '0']) = renderInt A ++ [op, '0'] := by
  have hs : ∀ c ∈ renderInt A ++ [' ', op, ' ', '0'], isAlphaC c = false := by
    intro c hc
    simp only [List.mem_append, List.mem_cons, List.not_mem_nil, or_false] at hc
    rcases hc with h | h | h | h | h
    · exact renderInt_not_alpha A c h
    · subst h; decide
    · subst h; exact halphaOp
    · subst h; decide
    · subst h; decide
  have hWN : wordToNumber.foldl (fun e p => subWord p.1 p.2 e)
      (renderInt A ++ [' ', op, ' ', '0']) =
      renderInt A ++ [' ', op, ' ', '0'] := by
    apply foldl_subWord_id
    intro p hp
    fin_cases hp <;> exact subWord_noalpha _ _ _ _ rfl (by decide) _ hs
  have hOp : operationWords.foldl applyOpWord (renderInt A ++ [' ', op, ' ', '0']) =
      renderInt A ++ [' ', op, ' ', '0'] :=
    foldl_applyOpWord_noalpha hs
      (by intro p hp; fin_cases hp <;> exact ⟨_, _, rfl, by decide⟩)
  have hsq1 : sqcGo "squared".data '2' 0 (renderInt A ++ [' ', op, ' ', '0']) =
      renderInt A ++ [' ', op, ' ', '0'] :=
    sqcGo_noalpha "squared".data '2' 's' _ rfl (by decide) _ hs
  have hsq2 : sqcGo "cubed".data '3' 0 (renderInt A ++ [' ', op, ' ', '0']) =
      renderInt A ++ [' ', op, ' ', '0'] :=
    sqcGo_noalpha "cubed".data '3' 'c' _ rfl (by decide) _ hs
  have hT2 : tightGo 0 (renderInt A ++ [' ', op, ' ', '0']) = renderInt A ++ [op, '0'] := by
    rw [tight_renderInt A, tight_space_op op hop]
    rw [List.dropWhile_cons, if_pos (by decide)]
    rw [dropWhileWS_cons_ne [] (by decide)]
    rw [show tightGo 0 ['0'] = ['0'] from by
      have h := tight_chunk ['0'] [] (by intro c hc; simp at hc; subst hc; exact ⟨by decide, by decide⟩)
      rw [show tightGo 0 ([] : List Char) = [] from rfl] at h
      simpa using h]
  have hstar2 : ∀ c ∈ renderInt A ++ [op, '0'], ¬c = '*' := by
    intro c hc
    simp only [List.mem_append, List.mem_cons, List.not_mem_nil, or_false] at hc
    rcases hc with h | h | h
    · rcases renderInt_chars A c h with h2 | h2
      · exact digit_ne h2 (by decide)
      · rw [h2]; decide
    · subst h; exact hstar
    · subst h; decide
  have hPow : tightPowGo 0 (renderInt A ++ [op, '0']) = renderInt A ++ [op, '0'] :=
    tightPow_nostar _ hstar2
  have htrim : trimL (renderInt A ++ [op, '0']) = renderInt A ++ [op, '0'] := by
    apply trimL_eq_self
    · intro c hc
      obtain ⟨a0, ar, hA⟩ := List.exists_cons_of_ne_nil (renderInt_ne_nil A)
      rw [hA, List.cons_append, List.head?_cons] at hc
      simp only [Option.some.injEq] at hc
      subst hc
      have ha0 : a0 ∈ renderInt A := by rw [hA]; simp
      exact renderInt_not_ws A a0 ha0
    · intro c hc
      rw [List.getLast?_append_of_ne_nil _ (by simp : ([op, '0'] : List Char) ≠ [])] at hc
      rw [show ([op, '0'] : List Char).getLast? = some '0' from rfl] at hc
      simp only [Option.some.injEq] at hc
      subst hc
      decide
  show trimL (tightPowGo 0 (tightGo 0 (sqcGo "cubed".data '3' 0 (sqcGo "squared".data '2' 0
    (operationWords.foldl applyOpWord (wordToNumber.foldl (fun e p => subWord p.1 p.2 e)
      (renderInt A ++ [' ', op, ' ', '0'])))))))  =
    renderInt A ++ [op, '0']
  rw [hWN, hOp, hsq1, hsq2, hT2, hPow, htrim]

theorem lexGo_pnum_emit (n : ℕ) (c : Char) (cs : List Char)
    (hdig : isDigitC c = false) (hdot : c ≠ '.')
    (hst : lexStart c = .emit (.op c)) :
    lexGo (some (.pnum n)) (c :: cs) =
      (lexGo none cs).map fun ts => .num (.i n) :: .op c :: ts := by
  have hext : extendPend (.pnum n) c = none := by
    rw [extendPend, if_neg (by simp [hdig]), if_neg hdot]
  rw [lexGo, hext, hst]
  · rfl
  · intro hc
    cases hc

theorem lexExpr_C4 (A : ℤ) (op : Char)
    (hdig : isDigitC op = false) (hdot : op ≠ '.')
    (hst : lexStart op = .emit (.op op)) :
    lexExpr (renderInt A ++ [op, '0']) = some (tokPre A ++ [.op op, .num (.i 0)]) := by
  cases A with
  | ofNat n =>
    show lexGo none (renderNat n ++ op :: ['0']) =
      some (.num (.i n) :: .op op :: [.num (.i 0)])
    rw [lexNat n, lexGo_pnum_emit n op ['0'] hdig hdot hst]
    rfl
  | negSucc m =>
    show lexGo none ('-' :: (renderNat (m + 1) ++ op :: ['0'])) =
      some (.op '-' :: .num (.i (m + 1)) :: .op op :: [.num (.i 0)])
    rw [lexGo_none_minus, lexNat (m + 1), lexGo_pnum_emit (m + 1) op ['0'] hdig hdot hst]
    rfl

theorem pExpr_C4 (f : ℕ) (A : ℤ) (op : Char) (hop : op = '/' ∨ op = '%') :
    pExpr (f + 12) (tokPre A ++ [.op op, .num (.i 0)]) = .error .divByZero := by
  rcases hop with rfl | rfl <;> cases A <;> rfl

theorem runExpr_C4 (A : ℤ) (op : Char) (hop : op = '/' ∨ op = '%')
    (hdig : isDigitC op = false) (hdot : op ≠ '.')
    (hst : lexStart op = .emit (.op op)) :
    runExpr (renderInt A ++ [op, '0']) = .error .divByZero := by
  rw [runExpr, lexExpr_C4 A op hdig hdot hst]
  show (match pExpr (8 * (tokPre A ++ [Tok.op op, Tok.num (.i 0)]).length + 16)
      (tokPre A ++ [Tok.op op, Tok.num (.i 0)]) with
    | .error e => (.error e : Except CalcErr PyNum)
    | .ok (v, []) => .ok v
    | .ok (_, _ :: _) => .error .synErr) = .error .divByZero
  rw [show 8 * (tokPre A ++ [Tok.op op, Tok.num (.i 0)]).length + 16 =
      (8 * (tokPre A ++ [Tok.op op, Tok.num (.i 0)]).length + 4) + 12 from by omega]
  rw [pExpr_C4 _ A op hop]

theorem parseAndEvaluate_C4 (maxV : ℚ) (A : ℤ) (op : Char) (hop : op = '/' ∨ op = '%') :
    parseAndEvaluate maxV (String.mk (renderInt A ++ [' ', op, ' ', '0'])) =
      .error .divByZero := by
  have hcs : isDigitC op = false ∧ op ≠ '.' ∧ lexStart op = .emit (.op op) ∧
      isAlphaC op = false ∧ isOpC op = true ∧ op ≠ '*' ∧
      ¬(65 ≤ op.toNat ∧ op.toNat ≤ 90) ∧ isWS op = false ∧ op ≠ '?' ∧ op ≠ '!' ∧
      op ≠ '_' := by
    rcases hop with rfl | rfl <;>
      exact ⟨by decide, by decide, rfl, by decide, by decide, by decide, by decide,
        by decide, by decide, by decide, by decide⟩
  obtain ⟨hdig, hdot, hst, halphaOp, hopc, hstar, hup, hws, hq, he, hu⟩ := hcs
  have halpha : ∀ c ∈ renderInt A ++ [op, '0'], isAlphaC c = false := by
    intro c hc
    simp only [List.mem_append, List.mem_cons, List.not_mem_nil, or_false] at hc
    rcases hc with h | h | h
    · exact renderInt_not_alpha A c h
    · subst h; exact halphaOp
    · subst h; decide
  have hund : ∀ c ∈ renderInt A ++ [op, '0'], c ≠ '_' := by
    intro c hc
    simp only [List.mem_append, List.mem_cons, List.not_mem_nil, or_false] at hc
    rcases hc with h | h | h
    · rcases renderInt_chars A c h with h2 | h2
      · exact digit_ne h2 (by decide)
      · subst h2; decide
    · subst h; exact hu
    · subst h; decide
  rw [parseAndEvaluate]
  rw [show (String.mk (renderInt A ++ [' ', op, ' ', '0'])).data =
      renderInt A ++ [' ', op, ' ', '0'] from rfl]
  rw [normalize_id_C4 A op hup hws hq he, convert_id_C4 A op halphaOp hopc hstar]
  rw [evaluateExpression]
  rw [matchesDangerous_plain halpha hund]
  rw [if_neg (by decide : ¬(false = true))]
  rw [substSafeFunctions_plain halpha, runExpr_C4 A op hop hdig hdot hst]

/-- C4 counterexample: a zero divisor does not always produce the
dedicated zero-division error.  `divide` validates magnitudes before it
checks divisors, so an out-of-range dividend with a zero divisor fails
with the magnitude error instead of the zero-division error. -/
theorem C4_counterexample :
    CalculatorEngine.divide maxValDefault (.i 2000000000000000) [.i 0] =
      .error .numTooLarge ∧
    (Except.error CalcErr.numTooLarge : Except CalcErr PyNum) ≠ .error .divByZero := by
  constructor
  · have hnv : ¬ CalculatorEngine.validOk maxValDefault
        [PyNum.i 2000000000000000, PyNum.i 0] := by
      intro h
      have h2 := h (PyNum.i 2000000000000000) (by simp)
      rw [PyNum.toQ_i] at h2
      norm_num [maxValDefault] at h2
    rw [CalculatorEngine.divide, if_neg (by simp), if_neg hnv]
  · decide

/-- C4 (amended): division and modulo by zero yield the dedicated
zero-division error kind once the operands pass input validation — in the
calculator engine for validated operand lists, and unconditionally in the
expression evaluator, whose `A / 0` and `A % 0` inputs reach the
zero-divisor check before any magnitude check. -/
theorem C4_amended (maxV : ℚ) (A : ℤ) (a b : PyNum) (ds : List PyNum)
    (hds : ds ≠ []) (hv : CalculatorEngine.validOk maxV (a :: ds))
    (hz : ∃ d ∈ ds, d.toQ = 0)
    (hvm : CalculatorEngine.validOk maxV [a, b]) (hbz : b.toQ = 0) :
    CalculatorEngine.divide maxV a ds = .error .divByZero ∧
    CalculatorEngine.modulo maxV a b = .error .divByZero ∧
    parseAndEvaluate maxV (String.mk (renderInt A ++ [' ', '/', ' ', '0'])) =
      .error .divByZero ∧
    parseAndEvaluate maxV (String.mk (renderInt A ++ [' ', '%', ' ', '0'])) =
      .error .divByZero := by
  refine ⟨?_, ?_, parseAndEvaluate_C4 maxV A '/' (Or.inl rfl),
    parseAndEvaluate_C4 maxV A '%' (Or.inr rfl)⟩
  · rw [CalculatorEngine.divide,
      if_neg (fun h => hds (List.length_eq_zero.mp h)), if_pos hv, if_pos hz]
  · rw [CalculatorEngine.modulo, if_pos hvm, if_pos hbz]

/-- Witness for C4 (amended) at concrete inputs: `divide(10, [0])`,
`modulo(10, 0)`, and the expressions `7 / 0` and `7 % 0`. -/
theorem C4_amended_witness :
    ([PyNum.i 0] ≠ ([] : List PyNum)) ∧
    CalculatorEngine.validOk maxValDefault [PyNum.i 10, PyNum.i 0] ∧
    (∃ d ∈ [PyNum.i 0], d.toQ = 0) ∧
    (PyNum.i 0).toQ = 0 ∧
    (CalculatorEngine.divide maxValDefault (.i 10) [.i 0] = .error .divByZero ∧
     CalculatorEngine.modulo maxValDefault (.i 10) (.i 0) = .error .divByZero ∧
     parseAndEvaluate maxValDefault (String.mk (renderInt 7 ++ [' ', '/', ' ', '0'])) =
       .error .divByZero ∧
     parseAndEvaluate maxValDefault (String.mk (renderInt 7 ++ [' ', '%', ' ', '0'])) =
       .error .divByZero) := by
  have hds : [PyNum.i 0] ≠ ([] : List PyNum) := by simp
  have hv : CalculatorEngine.validOk maxValDefault [PyNum.i 10, PyNum.i 0] := by
    intro x hx
    rcases List.mem_cons.mp hx with rfl | hx
    · rw [PyNum.toQ_i]; norm_num [maxValDefault]
    · rcases List.mem_cons.mp hx with rfl | hx
      · rw [PyNum.toQ_i]; norm_num [maxValDefault]
      · cases hx
  have hz : ∃ d ∈ [PyNum.i 0], d.toQ = 0 :=
    ⟨.i 0, by simp, by rw [PyNum.toQ_i]; norm_num⟩
  have hbz : (PyNum.i 0).toQ = 0 := by rw [PyNum.toQ_i]; norm_num
  exact ⟨hds, hv, hz, hbz,
    C4_amended maxValDefault 7 (.i 10) (.i 0) [.i 0] hds hv hz hv hbz⟩

/-! ### Evaluating a float addition through the pipeline -/

theorem pExpr_add_pair (f : ℕ) (v w : PyNum) :
    pExpr (f + 12) [.num v, .op '+', .num w] = .ok (v.add w, []) := rfl

theorem runExpr_of_lex (s : List Char) (v w : PyNum)
    (hlex : lexExpr s = some [.num v, .op '+', .num w]) :
    runExpr s = .ok (v.add w) := by
  rw [runExpr, hlex]
  show (match pExpr (8 * ([Tok.num v, Tok.op '+', Tok.num w] : List Tok).length + 16)
      ([Tok.num v, Tok.op '+', Tok.num w] : List Tok) with
    | .error e => (.error e : Except CalcErr PyNum)
    | .ok (r, []) => .ok r
    | .ok (_, _ :: _) => .error .synErr) = .ok (v.add w)
  rw [show 8 * ([Tok.num v, Tok.op '+', Tok.num w] : List Tok).length + 16 = 28 + 12 from rfl]
  rw [pExpr_add_pair 28 v w]

/-- Counterexample to C2 as stated over all numbers: on float operands the
two sides differ in numeric type.  `parseAndEvaluate "2.5 plus 2.5"`
canonicalizes the whole-valued float sum to the integer 5, while
`CalculatorEngine.add` on `[2.5, 2.5]` returns the float `5.0`. -/
theorem C2_counterexample :
    parseAndEvaluate maxValDefault "2.5 plus 2.5" = .ok (.i 5) ∧
    CalculatorEngine.add maxValDefault [.f (5 / 2), .f (5 / 2)] = .ok (.f 5) ∧
    (Except.ok (PyNum.i 5) : Except CalcErr PyNum) ≠ .ok (.f 5) := by
  have hconv : convertExpr (normalizeExpr ("2.5 plus 2.5" : String).data) =
      ("2.5+2.5" : String).data := by decide
  have hmd : matchesDangerous ("2.5+2.5" : String).data = false := by decide
  have hsub : substSafeFunctions ("2.5+2.5" : String).data =
      ("2.5+2.5" : String).data := by decide
  have hlex : lexExpr ("2.5+2.5" : String).data =
      some [.num (.f (((2 : ℕ) : ℚ) + ((5 : ℕ) : ℚ) / 10 ^ (1 : ℕ))), .op '+',
            .num (.f (((2 : ℕ) : ℚ) + ((5 : ℕ) : ℚ) / 10 ^ (1 : ℕ)))] := rfl
  have hq : (((2 : ℕ) : ℚ) + ((5 : ℕ) : ℚ) / 10 ^ (1 : ℕ)) +
      (((2 : ℕ) : ℚ) + ((5 : ℕ) : ℚ) / 10 ^ (1 : ℕ)) = 5 := by
    push_cast
    norm_num
  have hrun : runExpr ("2.5+2.5" : String).data = .ok (.f 5) := by
    have h := runExpr_of_lex _ _ _ hlex
    rw [show (PyNum.f (((2 : ℕ) : ℚ) + ((5 : ℕ) : ℚ) / 10 ^ (1 : ℕ))).add
        (.f (((2 : ℕ) : ℚ) + ((5 : ℕ) : ℚ) / 10 ^ (1 : ℕ))) =
        .f ((((2 : ℕ) : ℚ) + ((5 : ℕ) : ℚ) / 10 ^ (1 : ℕ)) +
          (((2 : ℕ) : ℚ) + ((5 : ℕ) : ℚ) / 10 ^ (1 : ℕ))) from rfl, hq] at h
    exact h
  refine ⟨?_, ?_, by decide⟩
  · rw [parseAndEvaluate, hconv, evaluateExpression, hmd,
      if_neg (by decide : ¬(false = true)), hsub, hrun]
    show (if maxValDefault < |(PyNum.f 5).toQ| then
        (Except.error CalcErr.resultTooLarge : Except CalcErr PyNum)
      else if (5 : ℚ).den = 1 then .ok (.i (5 : ℚ).num) else .ok (.f 5)) = .ok (.i 5)
    rw [if_neg (show ¬(maxValDefault < |(PyNum.f 5).toQ|) by
      rw [PyNum.toQ_f]; norm_num [maxValDefault])]
    rw [if_pos (show (5 : ℚ).den = 1 by norm_num)]
    rw [show ((5 : ℚ).num) = (5 : ℤ) from by norm_num]
  · rw [CalculatorEngine.add,
      if_neg (by simp : ¬([PyNum.f (5 / 2), PyNum.f (5 / 2)].length < 2))]
    have hvalid : CalculatorEngine.validOk maxValDefault
        [PyNum.f (5 / 2), PyNum.f (5 / 2)] := by
      intro x hx
      rcases List.mem_cons.mp hx with rfl | hx
      · rw [PyNum.toQ_f, abs_of_nonneg (by norm_num : (0 : ℚ) ≤ 5 / 2)]
        norm_num [maxValDefault]
      · rcases List.mem_cons.mp hx with rfl | hx
        · rw [PyNum.toQ_f, abs_of_nonneg (by norm_num : (0 : ℚ) ≤ 5 / 2)]
          norm_num [maxValDefault]
        · cases hx
    rw [if_pos hvalid]
    have hsumq : (((0 : ℤ) : ℚ) + 5 / 2) + 5 / 2 = 5 := by push_cast; norm_num
    have hsum : ((PyNum.i 0).add (.f (5 / 2))).add (.f (5 / 2)) = .f 5 := by
      rw [show ((PyNum.i 0).add (.f (5 / 2))).add (.f (5 / 2)) =
          .f ((((0 : ℤ) : ℚ) + 5 / 2) + 5 / 2) from rfl, hsumq]
    show (if maxValDefault < |(((PyNum.i 0).add (.f (5 / 2))).add (.f (5 / 2))).toQ| then
        (Except.error CalcErr.resultTooLarge : Except CalcErr PyNum)
      else .ok (((PyNum.i 0).add (.f (5 / 2))).add (.f (5 / 2)))) = .ok (.f 5)
    rw [hsum]
    rw [if_neg (show ¬(maxValDefault < |(PyNum.f 5).toQ|) by
      rw [PyNum.toQ_f]; norm_num [maxValDefault])]
